import Mathlib

/-!
Time-of-day ranges: parsing and membership.

A shallow embedding of `pkg/timerange/timerange.go`.

* Go `int` values are modelled as `Int`, on a 64-bit platform.  Comparisons are exact, and
  `hour*60 + minute` is computed with `0 ≤ hour ≤ 23` and `0 ≤ minute ≤ 59`, so the parser
  cannot overflow; `Atoi` reports an out-of-range literal as an error.  Where an `int` or
  `int64` operation can overflow (`currentMinute + 1` in `FindNextAllowedTime`, the
  arithmetic of `CalculateSleepDuration`) its result is wrapped by `toInt64`.
* Go `string` values are modelled as `List Char`, the sequence of Unicode code points
  of a well-formed UTF-8 string.
* `(T, error)` results are modelled as `Except`; the formatted error messages are
  modelled by one constructor per `fmt.Errorf` call site, carrying the interpolated
  value.
-/

namespace Timerange

/-! ## Library functions of Go used by the package -/

/-- Go `unicode.IsSpace`: the Latin-1 cases of the switch, then the `White_Space` table. -/
def IsSpace (r : Char) : Bool :=
  let n := r.toNat
  n == 0x09 || n == 0x0A || n == 0x0B || n == 0x0C || n == 0x0D || n == 0x20 ||
  n == 0x85 || n == 0xA0 || n == 0x1680 || (0x2000 ≤ n && n ≤ 0x200A) ||
  n == 0x2028 || n == 0x2029 || n == 0x202F || n == 0x205F || n == 0x3000

/-- Go `strings.TrimSpace`: drop the leading and the trailing white space. -/
def TrimSpace (s : List Char) : List Char :=
  ((s.dropWhile IsSpace).reverse.dropWhile IsSpace).reverse

/-- Go `strings.Split(s, sep)` for a one-character separator, the only kind the package
passes: the pieces of `s` between consecutive occurrences of `sep`; `n` occurrences
give `n + 1` pieces, and the empty string gives the single empty piece.  A split is never
empty (`Split_ne_nil`), so the first alternative of the inner `match` is never taken. -/
def Split : List Char → Char → List (List Char)
  | [], _ => [[]]
  | c :: cs, sep =>
    if c = sep then [] :: Split cs sep
    else
      match Split cs sep with
      | [] => [[c]]
      | p :: ps => (c :: p) :: ps

/-- Go `strings.Contains(s, sep)` for a one-character `sep`. -/
def Contains (s : List Char) (sep : Char) : Bool :=
  decide (sep ∈ s)

/-- The decimal digit `ch - '0'` when it is at most `9`. -/
def digitVal (ch : Char) : Option Nat :=
  if 48 ≤ ch.toNat ∧ ch.toNat ≤ 57 then some (ch.toNat - 48) else none

/-- The digit loop of `strconv.Atoi`: `n = n*10 + digit`, failing on a non-digit. -/
def atoiDigits : List Char → Nat → Option Nat
  | [], n => some n
  | ch :: rest, n =>
    match digitVal ch with
    | none => none
    | some d => atoiDigits rest (n * 10 + d)

/-- Go `strconv.Atoi` on a 64-bit platform: an optional sign `+` or `-`, then one or more
decimal digits; a syntax error or a value outside the range of `int` is `none`. -/
def Atoi (s : List Char) : Option Int :=
  match s with
  | [] => none
  | c :: rest =>
    if c = '-' then
      match rest with
      | [] => none
      | _ =>
        match atoiDigits rest 0 with
        | none => none
        | some n => if n ≤ 2 ^ 63 then some (-(n : Int)) else none
    else
      let ds := if c = '+' then rest else s
      match ds with
      | [] => none
      | _ =>
        match atoiDigits ds 0 with
        | none => none
        | some n => if n < 2 ^ 63 then some (n : Int) else none

/-- The value of the Go `int` (64 bits, two's complement) that an integer operation
with the exact result `x` yields: `x` wrapped into `[-2^63, 2^63)`. -/
def toInt64 (x : Int) : Int :=
  (x + 2 ^ 63) % 2 ^ 64 - 2 ^ 63

/-- Go `%d` of `fmt.Sprintf` on an `int`: the decimal digits, after a `-` for a negative
number. -/
def formatInt : Int → List Char
  | .ofNat n => Nat.toDigits 10 n
  | .negSucc n => '-' :: Nat.toDigits 10 (n + 1)

/-- Go `strings.Join(elems, sep)` for a one-character separator. -/
def Join : List (List Char) → Char → List Char
  | [], _ => []
  | [a], _ => a
  | a :: b :: rest, sep => a ++ sep :: Join (b :: rest) sep

/-- Go `time.Minute`: a `time.Duration` is an `int64` count of nanoseconds. -/
def Minute : Int := 60 * 1000000000

/-! ## The package -/

/-- Go `type TimeRange struct { Start int; End int }`. -/
structure TimeRange where
  Start : Int
  End : Int
deriving DecidableEq, Repr

/-- Go `type TimeRanges []TimeRange`. -/
abbrev TimeRanges := List TimeRange

/-- Go `func (tr TimeRange) IsInRange(minute int) bool`. -/
def TimeRange.IsInRange (tr : TimeRange) (minute : Int) : Bool :=
  if tr.Start ≤ tr.End then
    decide (minute ≥ tr.Start) && decide (minute < tr.End)
  else
    decide (minute ≥ tr.Start) || decide (minute < tr.End)

/-- Go `func (trs TimeRanges) IsInAnyRange(minute int) bool`: the `for ... range` loop,
returning at the first range that contains `minute`. -/
def TimeRanges.IsInAnyRange : TimeRanges → Int → Bool
  | [], _ => false
  | tr :: rest, minute =>
    if tr.IsInRange minute then true else TimeRanges.IsInAnyRange rest minute

/-- The errors of `parseTimeToMinutes`, one constructor per `fmt.Errorf` call. -/
inductive TimeError where
  /-- Line 118: the token does not split on `:` into two parts; carries `timeStr`. -/
  | badFormat (timeStr : List Char)
  /-- Line 123: invalid hour; carries `parts[0]`. -/
  | badHour (part : List Char)
  /-- Line 128: invalid minute; carries `parts[1]`. -/
  | badMinute (part : List Char)
  /-- Line 137: invalid minute count; carries `timeStr`. -/
  | badMinutes (timeStr : List Char)
deriving DecidableEq, Repr

/-- The errors of `ParseTimeRanges`, one constructor per `fmt.Errorf` call. -/
inductive ParseError where
  /-- Line 80: the range does not split on `-` into two parts; carries `rangeStr`. -/
  | format (rangeStr : List Char)
  /-- Line 86: invalid start time, wrapping the cause. -/
  | invalidStart (err : TimeError)
  /-- Line 92: invalid end time, wrapping the cause. -/
  | invalidEnd (err : TimeError)
deriving DecidableEq, Repr

/-- Go `func parseTimeToMinutes(timeStr string) (int, error)`. -/
def parseTimeToMinutes (timeStr : List Char) : Except TimeError Int :=
  if Contains timeStr ':' then
    match Split timeStr ':' with
    | [p0, p1] =>
      match Atoi (TrimSpace p0) with
      | none => .error (.badHour p0)
      | some hour =>
        if hour < 0 ∨ hour > 23 then .error (.badHour p0)
        else
          match Atoi (TrimSpace p1) with
          | none => .error (.badMinute p1)
          | some minute =>
            if minute < 0 ∨ minute > 59 then .error (.badMinute p1)
            else .ok (hour * 60 + minute)
    | _ => .error (.badFormat timeStr)
  else
    match Atoi (TrimSpace timeStr) with
    | none => .error (.badMinutes timeStr)
    | some minutes =>
      if minutes < 0 ∨ minutes > 1440 then .error (.badMinutes timeStr)
      else .ok minutes

/-- The `for _, rangeStr := range ranges` loop of `ParseTimeRanges`, lines 71-103:
`timeRanges` is the slice built so far. -/
def parseLoop : List (List Char) → TimeRanges → Except ParseError TimeRanges
  | [], timeRanges => .ok timeRanges
  | rangeStr :: ranges, timeRanges =>
    let rangeStr := TrimSpace rangeStr
    if rangeStr = [] then parseLoop ranges timeRanges
    else
      match Split rangeStr '-' with
      | [p0, p1] =>
        match parseTimeToMinutes p0 with
        | .error err => .error (.invalidStart err)
        | .ok start =>
          match parseTimeToMinutes p1 with
          | .error err => .error (.invalidEnd err)
          | .ok e =>
            let e := if e = 23 * 60 + 59 then 1440 else e
            parseLoop ranges (timeRanges ++ [{ Start := start, End := e }])
      | _ => .error (.format rangeStr)

/-- Go `func ParseTimeRanges(timedStr string) (TimeRanges, error)`. -/
def ParseTimeRanges (timedStr : List Char) : Except ParseError TimeRanges :=
  if timedStr = [] then .ok [{ Start := 0, End := 1440 }]
  else
    match parseLoop (Split timedStr ',') [] with
    | .error err => .error err
    | .ok timeRanges =>
      if timeRanges.length = 0 then .ok [{ Start := 0, End := 1440 }]
      else .ok timeRanges


/-- Go `func (trs TimeRanges) String() string`: each range is rendered by
`fmt.Sprintf("%d-%d", tr.Start, tr.End)` and the pieces are joined with commas. -/
def TimeRanges.String (trs : TimeRanges) : List Char :=
  Join (trs.map (fun tr => formatInt tr.Start ++ '-' :: formatInt tr.End)) ','

/-- The loop `for minute := start; minute < hi; minute++` of `FindNextAllowedTime`, which
returns the first `minute` that is in a range.  The first argument counts the iterations
that are left: started with `(hi - start).toNat`, it is `0` exactly when `minute = hi`,
that is when the loop ends without a result.  `minute + 1` does not overflow, as
`minute < hi`. -/
def scanLoop (timeRanges : TimeRanges) (hi : Int) : Nat → Int → Option Int
  | 0, _ => none
  | n + 1, minute =>
    if minute < hi then
      if TimeRanges.IsInAnyRange timeRanges minute then some minute
      else scanLoop timeRanges hi n (minute + 1)
    else none

/-- Go `func FindNextAllowedTime(currentMinute int, timeRanges TimeRanges) int`; the sum
`currentMinute + 1` is an `int` and wraps. -/
def FindNextAllowedTime (currentMinute : Int) (timeRanges : TimeRanges) : Int :=
  let start := toInt64 (currentMinute + 1)
  match scanLoop timeRanges 1440 (1440 - start).toNat start with
  | some minute => minute
  | none =>
    match scanLoop timeRanges currentMinute currentMinute.toNat 0 with
    | some minute => minute
    | none => currentMinute

/-- The local variable `sleepMinutes` of `CalculateSleepDuration`, an `int`. -/
def sleepMinutes (currentMinute nextAllowedMinute : Int) : Int :=
  if nextAllowedMinute > currentMinute then
    toInt64 (nextAllowedMinute - currentMinute)
  else
    toInt64 (toInt64 (1440 - currentMinute) + nextAllowedMinute)

/-- Go `func CalculateSleepDuration(currentMinute, nextAllowedMinute int) time.Duration`:
the result is `time.Duration(sleepMinutes) * time.Minute`, an `int64` count of
nanoseconds. -/
def CalculateSleepDuration (currentMinute nextAllowedMinute : Int) : Int :=
  toInt64 (sleepMinutes currentMinute nextAllowedMinute * Minute)

/-! ## Vocabulary of the specification -/

/-- The comma-separated segments of the input that are non-empty after trimming white
space, trimmed, in input order. -/
def segments (s : List Char) : List (List Char) :=
  ((Split s ',').map TrimSpace).filter (fun seg => decide (seg ≠ []))

/-- The token is accepted by `parseTimeToMinutes`. -/
def accepts (t : List Char) : Bool :=
  match parseTimeToMinutes t with
  | .ok _ => true
  | .error _ => false

/-- The segment splits on `-` into exactly two parts that `parseTimeToMinutes` both
accepts. -/
def wellFormedRange (seg : List Char) : Bool :=
  match Split seg '-' with
  | [p0, p1] => accepts p0 && accepts p1
  | _ => false

/-- The body of the loop of `ParseTimeRanges` on one trimmed, non-empty segment: the
range it appends, or the error it returns. -/
def rangeOf (seg : List Char) : Except ParseError TimeRange :=
  match Split seg '-' with
  | [p0, p1] =>
    match parseTimeToMinutes p0 with
    | .error err => .error (.invalidStart err)
    | .ok start =>
      match parseTimeToMinutes p1 with
      | .error err => .error (.invalidEnd err)
      | .ok e => .ok { Start := start, End := if e = 23 * 60 + 59 then 1440 else e }
  | _ => .error (.format seg)

/-- The ranges of a list of trimmed, non-empty segments, or the error of the first
segment that has one. -/
def rangesOf : List (List Char) → Except ParseError TimeRanges
  | [] => .ok []
  | seg :: rest =>
    match rangeOf seg with
    | .error err => .error err
    | .ok r =>
      match rangesOf rest with
      | .error err => .error err
      | .ok rs => .ok (r :: rs)

/-- The range with its end normalised as lines 95-98 of `ParseTimeRanges` do: the end
`23*60 + 59` becomes `1440`. -/
def normEnd (tr : TimeRange) : TimeRange :=
  { Start := tr.Start, End := if tr.End = 23 * 60 + 59 then 1440 else tr.End }

/-! ## Membership -/

/-- C1: for a range with `Start ≤ End`, `IsInRange m` holds exactly when
`Start ≤ m < End`; in particular a range with `Start = End` contains no minute. -/
theorem isInRange_of_start_le_end (s e m : Int) (h : s ≤ e) :
    (TimeRange.IsInRange { Start := s, End := e } m = true ↔ s ≤ m ∧ m < e) ∧
    (s = e → TimeRange.IsInRange { Start := s, End := e } m = false) := by
  refine ⟨?_, ?_⟩
  · simp [TimeRange.IsInRange, h]
  · intro hse
    subst hse
    simp [TimeRange.IsInRange]

theorem isInRange_of_start_le_end_witness :
    ((TimeRange.IsInRange { Start := 360, End := 480 } 400 = true ↔
        (360 : Int) ≤ 400 ∧ (400 : Int) < 480) ∧
      ((360 : Int) = 480 → TimeRange.IsInRange { Start := 360, End := 480 } 400 = false)) ∧
    TimeRange.IsInRange { Start := 360, End := 480 } 400 = true ∧
    TimeRange.IsInRange { Start := 360, End := 360 } 360 = false :=
  ⟨isInRange_of_start_le_end 360 480 400 (by decide), by decide, by decide⟩

/-- C2: for a range with `Start > End` (wrapping past midnight), `IsInRange m` holds
exactly when `m ≥ Start` or `m < End`; the range `{1380, 60}` contains `1380` and `30`
and excludes `1000`. -/
theorem isInRange_of_end_lt_start (s e m : Int) (h : e < s) :
    (TimeRange.IsInRange { Start := s, End := e } m = true ↔ m ≥ s ∨ m < e) ∧
    TimeRange.IsInRange { Start := 1380, End := 60 } 1380 = true ∧
    TimeRange.IsInRange { Start := 1380, End := 60 } 30 = true ∧
    TimeRange.IsInRange { Start := 1380, End := 60 } 1000 = false := by
  refine ⟨?_, by decide, by decide, by decide⟩
  have h' : ¬ s ≤ e := by omega
  simp [TimeRange.IsInRange, h']

theorem isInRange_of_end_lt_start_witness :
    (TimeRange.IsInRange { Start := 1320, End := 120 } 60 = true ↔
        (60 : Int) ≥ 1320 ∨ (60 : Int) < 120) ∧
    TimeRange.IsInRange { Start := 1380, End := 60 } 1380 = true ∧
    TimeRange.IsInRange { Start := 1380, End := 60 } 30 = true ∧
    TimeRange.IsInRange { Start := 1380, End := 60 } 1000 = false :=
  isInRange_of_end_lt_start 1320 120 60 (by decide)

/-- C3: `IsInAnyRange m` holds exactly when some element of the slice contains `m`; for
the empty slice it is false for every `m`. -/
theorem isInAnyRange_iff (trs : TimeRanges) (m : Int) :
    (TimeRanges.IsInAnyRange trs m = true ↔ ∃ tr ∈ trs, TimeRange.IsInRange tr m = true) ∧
    TimeRanges.IsInAnyRange [] m = false := by
  refine ⟨?_, rfl⟩
  induction trs with
  | nil => simp [TimeRanges.IsInAnyRange]
  | cons tr rest ih =>
    by_cases htr : TimeRange.IsInRange tr m = true
    · simp [TimeRanges.IsInAnyRange, htr]
    · simp [TimeRanges.IsInAnyRange, htr, ih]

/-! ## Facts about the library functions -/

theorem Split_ne_nil (s : List Char) (sep : Char) : Split s sep ≠ [] := by
  induction s with
  | nil => simp [Split]
  | cons c cs ih =>
    unfold Split
    split
    · simp
    · split <;> simp

/-- The unfolding of `Split` on a character that is not the separator. -/
theorem Split_cons_of_ne {c sep : Char} (h : c ≠ sep) (cs : List Char) :
    ∃ p ps, Split cs sep = p :: ps ∧ Split (c :: cs) sep = (c :: p) :: ps := by
  cases hs : Split cs sep with
  | nil => exact absurd hs (Split_ne_nil cs sep)
  | cons p ps =>
    refine ⟨p, ps, rfl, ?_⟩
    rw [Split, if_neg h, hs]

theorem Split_cons_sep (sep : Char) (cs : List Char) :
    Split (sep :: cs) sep = [] :: Split cs sep := by
  rw [Split, if_pos rfl]

/-- A string without the separator is its own single piece. -/
theorem Split_of_not_mem {s : List Char} {sep : Char} (h : sep ∉ s) : Split s sep = [s] := by
  induction s with
  | nil => rfl
  | cons c cs ih =>
    have hc : c ≠ sep := fun e => h (by simp [e])
    have hcs : sep ∉ cs := fun e => h (by simp [e])
    obtain ⟨p, ps, h1, h2⟩ := Split_cons_of_ne hc cs
    rw [h2]
    rw [ih hcs] at h1
    cases h1
    rfl

/-- Splitting at the first occurrence of the separator. -/
theorem Split_append_sep {a : List Char} {sep : Char} (h : sep ∉ a) (b : List Char) :
    Split (a ++ sep :: b) sep = a :: Split b sep := by
  induction a with
  | nil => exact Split_cons_sep sep b
  | cons c cs ih =>
    have hc : c ≠ sep := fun e => h (by simp [e])
    have hcs : sep ∉ cs := fun e => h (by simp [e])
    obtain ⟨p, ps, h1, h2⟩ := Split_cons_of_ne hc (cs ++ sep :: b)
    rw [List.cons_append, h2]
    rw [ih hcs] at h1
    cases h1
    rfl

/-- The pieces of a split are made of characters of the string other than the separator. -/
theorem mem_of_mem_Split {s : List Char} {sep : Char} :
    ∀ {p : List Char}, p ∈ Split s sep → ∀ c ∈ p, c ∈ s ∧ c ≠ sep := by
  induction s with
  | nil =>
    intro p hp c hc
    simp [Split] at hp
    subst hp
    simp at hc
  | cons x xs ih =>
    intro p hp c hc
    by_cases hx : x = sep
    · subst hx
      rw [Split_cons_sep] at hp
      rcases List.mem_cons.1 hp with h | h
      · subst h
        simp at hc
      · have := ih h c hc
        exact ⟨List.mem_cons_of_mem _ this.1, this.2⟩
    · obtain ⟨q, qs, h1, h2⟩ := Split_cons_of_ne hx xs
      rw [h2] at hp
      rcases List.mem_cons.1 hp with h | h
      · subst h
        rcases List.mem_cons.1 hc with h' | h'
        · subst h'
          exact ⟨by simp, hx⟩
        · have := ih (p := q) (by rw [h1]; simp) c h'
          exact ⟨List.mem_cons_of_mem _ this.1, this.2⟩
      · have := ih (p := p) (by rw [h1]; simp [h]) c hc
        exact ⟨List.mem_cons_of_mem _ this.1, this.2⟩

/-- Every character of the string other than the separator is in one of the pieces. -/
theorem mem_Split_of_mem {s : List Char} {sep : Char} :
    ∀ c ∈ s, c ≠ sep → ∃ p ∈ Split s sep, c ∈ p := by
  induction s with
  | nil => intro c hc; simp at hc
  | cons x xs ih =>
    intro c hc hne
    by_cases hx : x = sep
    · subst hx
      rw [Split_cons_sep]
      rcases List.mem_cons.1 hc with h | h
      · exact absurd h hne
      · obtain ⟨p, hp, hcp⟩ := ih c h hne
        exact ⟨p, List.mem_cons_of_mem _ hp, hcp⟩
    · obtain ⟨q, qs, h1, h2⟩ := Split_cons_of_ne hx xs
      rw [h2]
      rcases List.mem_cons.1 hc with h | h
      · exact ⟨x :: q, by simp, by simp [h]⟩
      · obtain ⟨p, hp, hcp⟩ := ih c h hne
        rw [h1] at hp
        rcases List.mem_cons.1 hp with h' | h'
        · subst h'
          exact ⟨x :: p, by simp, List.mem_cons_of_mem _ hcp⟩
        · exact ⟨p, by simp [h'], hcp⟩

/-- A string of white space trims to the empty string. -/
theorem TrimSpace_eq_nil_of_all_space {s : List Char} (h : ∀ c ∈ s, IsSpace c = true) :
    TrimSpace s = [] := by
  have : s.dropWhile IsSpace = [] := List.dropWhile_eq_nil_iff.2 h
  simp [TrimSpace, this]

/-- Trimming keeps only characters of the string. -/
theorem mem_of_mem_TrimSpace {s : List Char} {c : Char} (h : c ∈ TrimSpace s) : c ∈ s := by
  unfold TrimSpace at h
  rw [List.mem_reverse] at h
  have h1 := (List.dropWhile_sublist IsSpace).subset h
  rw [List.mem_reverse] at h1
  exact (List.dropWhile_sublist IsSpace).subset h1

/-! ## The loop of the parser, segment by segment -/

/-- One iteration of the loop: an empty segment is skipped, any other one appends its
range or stops the loop with its error. -/
theorem parseLoop_cons (rangeStr : List Char) (ranges : List (List Char)) (acc : TimeRanges) :
    parseLoop (rangeStr :: ranges) acc =
      if TrimSpace rangeStr = [] then parseLoop ranges acc
      else
        match rangeOf (TrimSpace rangeStr) with
        | .error err => .error err
        | .ok r => parseLoop ranges (acc ++ [r]) := by
  rw [parseLoop]
  by_cases h : TrimSpace rangeStr = []
  · simp [h]
  · simp only [h, if_false]
    unfold rangeOf
    split
    · split
      · rfl
      · split <;> rfl
    · rfl

/-- The loop returns the slice built so far followed by the ranges of the segments. -/
theorem parseLoop_eq (l : List (List Char)) :
    ∀ acc : TimeRanges, parseLoop l acc =
      match rangesOf ((l.map TrimSpace).filter (fun seg => decide (seg ≠ []))) with
      | .error err => .error err
      | .ok rs => .ok (acc ++ rs) := by
  induction l with
  | nil => intro acc; simp [parseLoop, rangesOf]
  | cons x xs ih =>
    intro acc
    rw [parseLoop_cons]
    by_cases h : TrimSpace x = []
    · simp [h, ih]
    · simp only [h, if_false, List.map_cons]
      rw [List.filter_cons_of_pos (by simpa using h), rangesOf]
      cases hr : rangeOf (TrimSpace x) with
      | error err => rfl
      | ok r =>
        simp only [ih]
        cases rangesOf ((xs.map TrimSpace).filter (fun seg => decide (seg ≠ []))) with
        | error err => rfl
        | ok rs => simp

/-- The empty string has no segment. -/
theorem segments_nil : segments [] = [] := by
  simp [segments, Split, TrimSpace]

/-- The parser in terms of the segments of its input. -/
theorem ParseTimeRanges_eq (s : List Char) :
    ParseTimeRanges s =
      match rangesOf (segments s) with
      | .error err => .error err
      | .ok rs => if rs = [] then .ok [{ Start := 0, End := 1440 }] else .ok rs := by
  unfold ParseTimeRanges
  by_cases hs : s = []
  · subst hs
    simp [segments_nil, rangesOf]
  · rw [if_neg hs, parseLoop_eq]
    unfold segments
    cases rangesOf (((Split s ',').map TrimSpace).filter (fun seg => decide (seg ≠ []))) with
    | error err => rfl
    | ok rs => cases rs <;> simp

theorem rangesOf_ok_iff (l : List (List Char)) :
    ∀ rs : TimeRanges, rangesOf l = .ok rs ↔
      List.Forall₂ (fun seg r => rangeOf seg = .ok r) l rs := by
  induction l with
  | nil =>
    intro rs
    simp [rangesOf]
  | cons x xs ih =>
    intro rs
    rw [rangesOf]
    cases hx : rangeOf x with
    | error err =>
      simp only [List.forall₂_cons_left_iff, hx]
      simp
    | ok r =>
      cases hxs : rangesOf xs with
      | error err =>
        simp only [List.forall₂_cons_left_iff, hx]
        constructor
        · intro h; cases h
        · rintro ⟨b, u, hb, hu, rfl⟩
          rw [← ih, hxs] at hu
          cases hu
      | ok rs' =>
        simp only [List.forall₂_cons_left_iff, hx]
        constructor
        · intro h
          cases h
          exact ⟨r, rs', rfl, (ih rs').1 hxs, rfl⟩
        · rintro ⟨b, u, hb, hu, rfl⟩
          cases hb
          rw [← ih, hxs] at hu
          cases hu
          rfl

theorem rangesOf_error_iff (l : List (List Char)) (err : ParseError) :
    rangesOf l = .error err ↔
      ∃ pre seg post, l = pre ++ seg :: post ∧ (∀ x ∈ pre, ∃ r, rangeOf x = .ok r) ∧
        rangeOf seg = .error err := by
  induction l with
  | nil => simp [rangesOf]
  | cons x xs ih =>
    rw [rangesOf]
    cases hx : rangeOf x with
    | error e =>
      constructor
      · intro h
        cases h
        exact ⟨[], x, xs, rfl, by simp, hx⟩
      · rintro ⟨pre, seg, post, hl, hpre, hseg⟩
        cases pre with
        | nil =>
          simp only [List.nil_append, List.cons.injEq] at hl
          rw [← hl.1, hx] at hseg
          simpa using hseg
        | cons y ys =>
          simp only [List.cons_append, List.cons.injEq] at hl
          obtain ⟨r, hr⟩ := hpre y (by simp)
          rw [← hl.1, hx] at hr
          cases hr
    | ok r =>
      cases hxs : rangesOf xs with
      | error e =>
        have ih1 := ih
        rw [hxs] at ih1
        constructor
        · intro h
          cases h
          obtain ⟨pre, seg, post, hl, hpre, hseg⟩ := ih1.1 rfl
          refine ⟨x :: pre, seg, post, by simp [hl], ?_, hseg⟩
          intro y hy
          rcases List.mem_cons.1 hy with h | h
          · exact ⟨r, h ▸ hx⟩
          · exact hpre y h
        · rintro ⟨pre, seg, post, hl, hpre, hseg⟩
          cases pre with
          | nil =>
            simp only [List.nil_append, List.cons.injEq] at hl
            rw [← hl.1, hx] at hseg
            cases hseg
          | cons y ys =>
            simp only [List.cons_append, List.cons.injEq] at hl
            exact ih1.2 ⟨ys, seg, post, hl.2, fun z hz => hpre z (by simp [hz]), hseg⟩
      | ok rs =>
        have ih1 := ih
        rw [hxs] at ih1
        constructor
        · intro h; cases h
        · rintro ⟨pre, seg, post, hl, hpre, hseg⟩
          cases pre with
          | nil =>
            simp only [List.nil_append, List.cons.injEq] at hl
            rw [← hl.1, hx] at hseg
            cases hseg
          | cons y ys =>
            simp only [List.cons_append, List.cons.injEq] at hl
            have := ih1.2 ⟨ys, seg, post, hl.2, fun z hz => hpre z (by simp [hz]), hseg⟩
            cases this

/-- A segment has a range exactly when it is a well-formed range. -/
theorem rangeOf_ok_iff (seg : List Char) :
    (∃ r, rangeOf seg = .ok r) ↔ wellFormedRange seg = true := by
  unfold rangeOf wellFormedRange accepts
  split
  · rename_i p0 p1 _
    cases parseTimeToMinutes p0 with
    | error e => simp
    | ok a =>
      cases parseTimeToMinutes p1 with
      | error e => simp
      | ok b => simp
  · simp

/-! ## Trimming -/

/-- Dropping trailing white space removes a suffix of white space. -/
theorem rtrim_append (l : List Char) :
    ∃ ws : List Char, l = (l.reverse.dropWhile IsSpace).reverse ++ ws ∧
      ∀ c ∈ ws, IsSpace c = true := by
  refine ⟨(l.reverse.takeWhile IsSpace).reverse, ?_, ?_⟩
  · rw [← List.reverse_append, List.takeWhile_append_dropWhile, List.reverse_reverse]
  · intro c hc
    rw [List.mem_reverse] at hc
    exact List.mem_takeWhile_imp hc

/-- Dropping trailing white space keeps a first character that is not white space. -/
theorem rtrim_cons {c : Char} (hc : IsSpace c = false) (cs : List Char) :
    ∃ r, ((c :: cs).reverse.dropWhile IsSpace).reverse = c :: r := by
  obtain ⟨ws, h1, h2⟩ := rtrim_append (c :: cs)
  cases hr : ((c :: cs).reverse.dropWhile IsSpace).reverse with
  | nil =>
    rw [hr, List.nil_append] at h1
    have := h2 c (by rw [← h1]; simp)
    rw [hc] at this
    cases this
  | cons y ys =>
    rw [hr, List.cons_append] at h1
    cases h1
    exact ⟨ys, rfl⟩

/-- What is left after dropping leading white space is empty or starts with a character
that is not white space. -/
theorem dropWhile_space_cases (l : List Char) :
    l.dropWhile IsSpace = [] ∨
      ∃ c cs, l.dropWhile IsSpace = c :: cs ∧ IsSpace c = false := by
  induction l with
  | nil => left; rfl
  | cons x xs ih =>
    cases hx : IsSpace x with
    | true => rw [List.dropWhile_cons_of_pos hx]; exact ih
    | false =>
      right
      exact ⟨x, xs, List.dropWhile_cons_of_neg (by simp [hx]), hx⟩

/-- Trimming a trimmed string changes nothing. -/
theorem TrimSpace_idem (x : List Char) : TrimSpace (TrimSpace x) = TrimSpace x := by
  unfold TrimSpace
  rcases dropWhile_space_cases x with h | ⟨c, cs, h, hc⟩
  · simp [h]
  · rw [h]
    obtain ⟨r, hr⟩ := rtrim_cons hc cs
    rw [hr, List.dropWhile_cons_of_neg (by simp [hc]), ← hr, List.reverse_reverse,
      List.dropWhile_idempotent]

/-- A character of a string is white space or survives trimming. -/
theorem mem_TrimSpace_or_space {x : List Char} {c : Char} (h : c ∈ x) :
    IsSpace c = true ∨ c ∈ TrimSpace x := by
  rw [← List.takeWhile_append_dropWhile IsSpace x, List.mem_append] at h
  rcases h with h | h
  · exact Or.inl (List.mem_takeWhile_imp h)
  · obtain ⟨ws, h1, h2⟩ := rtrim_append (x.dropWhile IsSpace)
    rw [h1, List.mem_append] at h
    rcases h with h | h
    · exact Or.inr h
    · exact Or.inl (h2 c h)

/-- The segments are non-empty, trimmed and free of commas. -/
theorem of_mem_segments {s seg : List Char} (h : seg ∈ segments s) :
    seg ≠ [] ∧ TrimSpace seg = seg ∧ ',' ∉ seg := by
  unfold segments at h
  rw [List.mem_filter, List.mem_map] at h
  obtain ⟨⟨p, hp, rfl⟩, hne⟩ := h
  refine ⟨by simpa using hne, TrimSpace_idem p, ?_⟩
  intro hc
  exact (mem_of_mem_Split hp ',' (mem_of_mem_TrimSpace hc)).2 rfl

/-- A non-empty, trimmed, comma-free string is its own single segment. -/
theorem segments_self {seg : List Char} (h1 : seg ≠ []) (h2 : TrimSpace seg = seg)
    (h3 : ',' ∉ seg) : segments seg = [seg] := by
  unfold segments
  rw [Split_of_not_mem h3]
  simp [h2, h1]

/-- Parsing one segment alone gives the range of that segment. -/
theorem ParseTimeRanges_segment {seg : List Char} (h1 : seg ≠ []) (h2 : TrimSpace seg = seg)
    (h3 : ',' ∉ seg) (r : TimeRange) :
    ParseTimeRanges seg = .ok [r] ↔ rangeOf seg = .ok r := by
  rw [ParseTimeRanges_eq, segments_self h1 h2 h3, rangesOf]
  cases rangeOf seg with
  | error err => simp
  | ok r' => simp [rangesOf]

theorem forall₂_of_mem {R : List Char → TimeRange → Prop} {Q : List Char → TimeRange → Prop}
    {l : List (List Char)} {rs : TimeRanges} (h : List.Forall₂ R l rs)
    (hq : ∀ seg ∈ l, ∀ r, R seg r → Q seg r) : List.Forall₂ Q l rs := by
  induction h with
  | nil => exact List.Forall₂.nil
  | cons hab _ ih =>
    refine List.Forall₂.cons (hq _ (by simp) _ hab) (ih ?_)
    intro seg hseg r hr
    exact hq seg (List.mem_cons_of_mem _ hseg) r hr

theorem forall₂_mem_left {R : List Char → TimeRange → Prop} {l : List (List Char)}
    {rs : TimeRanges} (h : List.Forall₂ R l rs) : ∀ seg ∈ l, ∃ r, R seg r := by
  induction h with
  | nil => intro seg hseg; simp at hseg
  | cons hab _ ih =>
    intro seg hseg
    rcases List.mem_cons.1 hseg with h | h
    · exact ⟨_, h ▸ hab⟩
    · exact ih seg h

/-- The error of a segment that is not a well-formed range. -/
theorem rangeOf_error {seg : List Char} {err : ParseError} (h : rangeOf seg = .error err) :
    ((Split seg '-').length ≠ 2 → err = .format seg) ∧
    (∀ p0 p1, Split seg '-' = [p0, p1] →
      (accepts p0 = false →
        ∃ cause, parseTimeToMinutes p0 = .error cause ∧ err = .invalidStart cause) ∧
      (accepts p0 = true → accepts p1 = false →
        ∃ cause, parseTimeToMinutes p1 = .error cause ∧ err = .invalidEnd cause)) := by
  unfold rangeOf at h
  split at h
  · rename_i q0 q1 hq
    refine ⟨fun hlen => absurd (by rw [hq]; rfl) hlen, ?_⟩
    intro p0 p1 hp
    rw [hq] at hp
    simp only [List.cons.injEq, and_true] at hp
    obtain ⟨rfl, rfl⟩ := hp
    unfold accepts
    cases h0 : parseTimeToMinutes q0 with
    | error c0 =>
      rw [h0] at h
      simp only [Except.error.injEq] at h
      exact ⟨fun _ => ⟨c0, rfl, h.symm⟩, fun hh => by simp at hh⟩
    | ok a =>
      rw [h0] at h
      refine ⟨fun hh => by simp at hh, fun _ => ?_⟩
      cases h1 : parseTimeToMinutes q1 with
      | error c1 =>
        rw [h1] at h
        simp only [Except.error.injEq] at h
        exact fun _ => ⟨c1, rfl, h.symm⟩
      | ok b => simp
  · simp only [Except.error.injEq] at h
    refine ⟨fun _ => h.symm, ?_⟩
    intro p0 p1 hp
    rename_i hne
    exact absurd hp (hne p0 p1)

/-! ## The time-token parser -/

/-- The decision of `strings.Contains`. -/
theorem Contains_iff (s : List Char) (sep : Char) : Contains s sep = true ↔ sep ∈ s := by
  simp [Contains]

/-- A token with a colon is accepted with value `v` exactly when it splits on `:` into two
parts whose trimmed texts `Atoi` reads as an hour in `[0,23]` and a minute in `[0,59]`
with `v = hour*60 + minute`. -/
theorem parseTimeToMinutes_ok_colon {t : List Char} (h : ':' ∈ t) (v : Int) :
    parseTimeToMinutes t = .ok v ↔
      ∃ p0 p1 hh mm, Split t ':' = [p0, p1] ∧
        Atoi (TrimSpace p0) = some hh ∧ 0 ≤ hh ∧ hh ≤ 23 ∧
        Atoi (TrimSpace p1) = some mm ∧ 0 ≤ mm ∧ mm ≤ 59 ∧ v = hh * 60 + mm := by
  unfold parseTimeToMinutes
  rw [if_pos ((Contains_iff t ':').2 h)]
  split
  · rename_i q0 q1 hq
    have hR : (∃ p0 p1 hh mm, Split t ':' = [p0, p1] ∧
        Atoi (TrimSpace p0) = some hh ∧ 0 ≤ hh ∧ hh ≤ 23 ∧
        Atoi (TrimSpace p1) = some mm ∧ 0 ≤ mm ∧ mm ≤ 59 ∧ v = hh * 60 + mm) ↔
        ∃ hh mm, Atoi (TrimSpace q0) = some hh ∧ 0 ≤ hh ∧ hh ≤ 23 ∧
          Atoi (TrimSpace q1) = some mm ∧ 0 ≤ mm ∧ mm ≤ 59 ∧ v = hh * 60 + mm := by
      constructor
      · rintro ⟨p0, p1, hh, mm, hs, rest⟩
        rw [hq] at hs
        simp only [List.cons.injEq, and_true] at hs
        obtain ⟨rfl, rfl⟩ := hs
        exact ⟨hh, mm, rest⟩
      · rintro ⟨hh, mm, rest⟩
        exact ⟨q0, q1, hh, mm, hq, rest⟩
    rw [hR]
    cases h0 : Atoi (TrimSpace q0) with
    | none => simp
    | some hh =>
      by_cases hhr : hh < 0 ∨ hh > 23
      · simp only [hhr, if_true]
        constructor
        · intro hc; cases hc
        · rintro ⟨hh', mm, ha, h1, h2, -⟩
          cases ha
          omega
      · simp only [hhr, if_false]
        cases h1 : Atoi (TrimSpace q1) with
        | none => simp
        | some mm =>
          by_cases hmr : mm < 0 ∨ mm > 59
          · simp only [hmr, if_true]
            constructor
            · intro hc; cases hc
            · rintro ⟨hh', mm', -, -, -, ha, h2, h3, -⟩
              cases ha
              omega
          · simp only [hmr, if_false]
            constructor
            · intro hc
              cases hc
              exact ⟨hh, mm, rfl, by omega, by omega, rfl, by omega, by omega, rfl⟩
            · rintro ⟨hh', mm', ha0, -, -, ha1, -, -, rfl⟩
              cases ha0
              cases ha1
              rfl
  · rename_i hne
    constructor
    · intro hc; cases hc
    · rintro ⟨p0, p1, _, _, hs, -⟩
      exact absurd hs (hne p0 p1)

/-- A token without a colon is accepted with value `v` exactly when `Atoi` reads its
trimmed text as `v` and `0 ≤ v ≤ 1440`. -/
theorem parseTimeToMinutes_ok_plain {t : List Char} (h : ':' ∉ t) (v : Int) :
    parseTimeToMinutes t = .ok v ↔ Atoi (TrimSpace t) = some v ∧ 0 ≤ v ∧ v ≤ 1440 := by
  unfold parseTimeToMinutes
  have hc : ¬ Contains t ':' = true := fun hc => h ((Contains_iff t ':').1 hc)
  rw [if_neg hc]
  cases h0 : Atoi (TrimSpace t) with
  | none => simp
  | some n =>
    by_cases hr : n < 0 ∨ n > 1440
    · simp only [hr, if_true]
      constructor
      · intro hc; cases hc
      · rintro ⟨ha, h1, h2⟩
        cases ha
        omega
    · simp only [hr, if_false]
      constructor
      · intro hc
        cases hc
        exact ⟨rfl, by omega, by omega⟩
      · rintro ⟨ha, -, -⟩
        cases ha
        rfl

/-- The digit loop succeeds only on digits. -/
theorem atoiDigits_digits (l : List Char) :
    ∀ n m : Nat, atoiDigits l n = some m → ∀ c ∈ l, digitVal c ≠ none := by
  induction l with
  | nil => intro n m _ c hc; simp at hc
  | cons x xs ih =>
    intro n m h c hc
    rw [atoiDigits] at h
    cases hx : digitVal x with
    | none => rw [hx] at h; cases h
    | some d =>
      rw [hx] at h
      rcases List.mem_cons.1 hc with hcx | hcx
      · rw [hcx, hx]; simp
      · exact ih _ m h c hcx

/-- The text `Atoi` reads is made of a sign and digits. -/
theorem Atoi_chars {l : List Char} {v : Int} (h : Atoi l = some v) :
    ∀ c ∈ l, c = '-' ∨ c = '+' ∨ digitVal c ≠ none := by
  cases l with
  | nil => intro c hc; simp at hc
  | cons x rest =>
    intro c hc
    unfold Atoi at h
    by_cases hx : x = '-'
    · simp only [hx, if_true] at h
      rcases List.mem_cons.1 hc with hcx | hcx
      · exact Or.inl (hcx.trans hx)
      · cases rest with
        | nil => simp at hcx
        | cons y ys =>
          simp only at h
          cases hd : atoiDigits (y :: ys) 0 with
          | none => rw [hd] at h; cases h
          | some n => exact Or.inr (Or.inr (atoiDigits_digits _ 0 n hd c hcx))
    · simp only [hx, if_false] at h
      by_cases hp : x = '+'
      · simp only [hp, if_true] at h
        rcases List.mem_cons.1 hc with hcx | hcx
        · exact Or.inr (Or.inl (hcx.trans hp))
        · cases rest with
          | nil => simp at hcx
          | cons y ys =>
            simp only at h
            cases hd : atoiDigits (y :: ys) 0 with
            | none => rw [hd] at h; cases h
            | some n => exact Or.inr (Or.inr (atoiDigits_digits _ 0 n hd c hcx))
      · simp only [hp, if_false] at h
        cases hd : atoiDigits (x :: rest) 0 with
        | none => rw [hd] at h; cases h
        | some n => exact Or.inr (Or.inr (atoiDigits_digits _ 0 n hd c hc))

/-- A comma is not read by `Atoi`, also not after trimming. -/
theorem not_comma_mem_of_Atoi {p : List Char} {v : Int} (h : Atoi (TrimSpace p) = some v) :
    ',' ∉ p := by
  intro hc
  rcases mem_TrimSpace_or_space hc with h1 | h1
  · exact absurd h1 (by decide)
  · rcases Atoi_chars h ',' h1 with h2 | h2 | h2
    · exact absurd h2 (by decide)
    · exact absurd h2 (by decide)
    · exact h2 (by decide)

/-- An accepted token has no comma. -/
theorem not_comma_mem_of_accepted {t : List Char} {v : Int}
    (h : parseTimeToMinutes t = .ok v) : ',' ∉ t := by
  by_cases hcol : ':' ∈ t
  · obtain ⟨p0, p1, hh, mm, hs, h0, -, -, h1, -⟩ := (parseTimeToMinutes_ok_colon hcol v).1 h
    intro hc
    obtain ⟨p, hp, hcp⟩ := @mem_Split_of_mem t ':' ',' hc (by decide)
    rw [hs] at hp
    simp only [List.mem_cons, List.mem_singleton, List.not_mem_nil, or_false] at hp
    rcases hp with rfl | rfl
    · exact not_comma_mem_of_Atoi h0 hcp
    · exact not_comma_mem_of_Atoi h1 hcp
  · exact not_comma_mem_of_Atoi ((parseTimeToMinutes_ok_plain hcol v).1 h).1

/-- An accepted token is not made of white space only. -/
theorem dropWhile_ne_nil_of_accepted {t : List Char} {v : Int}
    (h : parseTimeToMinutes t = .ok v) : t.dropWhile IsSpace ≠ [] := by
  intro hnil
  by_cases hcol : ':' ∈ t
  · exact absurd (List.dropWhile_eq_nil_iff.1 hnil ':' hcol) (by decide)
  · have h0 := ((parseTimeToMinutes_ok_plain hcol v).1 h).1
    rw [TrimSpace_eq_nil_of_all_space (List.dropWhile_eq_nil_iff.1 hnil)] at h0
    cases h0

/-- Dropping leading white space only shortens the first piece of a split on a separator
that is not white space. -/
theorem Split_dropWhile {sep : Char} (hsep : IsSpace sep = false) (t : List Char) :
    ∀ p ps, Split t sep = p :: ps →
      Split (t.dropWhile IsSpace) sep = p.dropWhile IsSpace :: ps := by
  induction t with
  | nil =>
    intro p ps h
    simp only [Split, List.cons.injEq] at h
    obtain ⟨rfl, rfl⟩ := h
    rfl
  | cons c cs ih =>
    intro p ps h
    cases hc : IsSpace c with
    | true =>
      have hne : c ≠ sep := by
        intro e
        rw [e, hsep] at hc
        cases hc
      obtain ⟨q, qs, h1, h2⟩ := Split_cons_of_ne hne cs
      rw [h2] at h
      simp only [List.cons.injEq] at h
      obtain ⟨rfl, rfl⟩ := h
      rw [List.dropWhile_cons_of_pos hc, List.dropWhile_cons_of_pos hc]
      exact ih q qs h1
    | false =>
      rw [List.dropWhile_cons_of_neg (by simp [hc]), h]
      by_cases hcs : c = sep
      · rw [hcs, Split_cons_sep] at h
        simp only [List.cons.injEq] at h
        rw [← h.1]
        rfl
      · obtain ⟨q, qs, h1, h2⟩ := Split_cons_of_ne hcs cs
        rw [h2] at h
        simp only [List.cons.injEq] at h
        rw [← h.1, List.dropWhile_cons_of_neg (by simp [hc])]

/-- Trimming does not see leading white space dropped beforehand. -/
theorem TrimSpace_dropWhile (t : List Char) : TrimSpace (t.dropWhile IsSpace) = TrimSpace t := by
  unfold TrimSpace
  rw [List.dropWhile_idempotent]

/-- A token stays accepted, with the same value, when its leading white space is dropped. -/
theorem parseTimeToMinutes_dropWhile {t : List Char} {v : Int}
    (h : parseTimeToMinutes t = .ok v) : parseTimeToMinutes (t.dropWhile IsSpace) = .ok v := by
  by_cases hcol : ':' ∈ t
  · have hcol' : ':' ∈ t.dropWhile IsSpace := by
      have := hcol
      rw [← List.takeWhile_append_dropWhile IsSpace t, List.mem_append] at this
      rcases this with h1 | h1
      · exact absurd (List.mem_takeWhile_imp h1) (by decide)
      · exact h1
    obtain ⟨p0, p1, hh, mm, hs, rest⟩ := (parseTimeToMinutes_ok_colon hcol v).1 h
    refine (parseTimeToMinutes_ok_colon hcol' v).2
      ⟨p0.dropWhile IsSpace, p1, hh, mm, Split_dropWhile (by decide) t p0 [p1] hs, ?_⟩
    rw [TrimSpace_dropWhile]
    exact rest
  · have hcol' : ':' ∉ t.dropWhile IsSpace :=
      fun hc => hcol ((List.dropWhile_sublist IsSpace).subset hc)
    refine (parseTimeToMinutes_ok_plain hcol' v).2 ?_
    rw [TrimSpace_dropWhile]
    exact (parseTimeToMinutes_ok_plain hcol v).1 h

/-- Trimming a string that does not start with white space after a token and ends with a
character that is not white space only drops the leading white space of the token. -/
theorem TrimSpace_append {t : List Char} (ht : t.dropWhile IsSpace ≠ []) (u : List Char)
    {z : Char} (hz : IsSpace z = false) :
    TrimSpace (t ++ (u ++ [z])) = t.dropWhile IsSpace ++ (u ++ [z]) := by
  unfold TrimSpace
  have h1 : (t ++ (u ++ [z])).dropWhile IsSpace = t.dropWhile IsSpace ++ (u ++ [z]) := by
    rw [List.dropWhile_append]
    simp [ht]
  rw [h1, ← List.append_assoc, List.reverse_append, List.reverse_singleton,
    List.singleton_append, List.dropWhile_cons_of_neg (by simp [hz])]
  simp

/-! ## The parser -/

/-- C4: on an input that is empty or made only of commas and white space the parser
succeeds with the single all-day range `{0, 1440}`. -/
theorem parseTimeRanges_blank (s : List Char) (h : ∀ c ∈ s, c = ',' ∨ IsSpace c = true) :
    ParseTimeRanges s = .ok [{ Start := 0, End := 1440 }] := by
  have hseg : segments s = [] := by
    unfold segments
    rw [List.filter_eq_nil_iff]
    intro seg hs
    rw [List.mem_map] at hs
    obtain ⟨p, hp, rfl⟩ := hs
    have : TrimSpace p = [] := by
      apply TrimSpace_eq_nil_of_all_space
      intro c hc
      obtain ⟨hcs, hne⟩ := mem_of_mem_Split hp c hc
      rcases h c hcs with h1 | h1
      · exact absurd h1 hne
      · exact h1
    simp [this]
  rw [ParseTimeRanges_eq, hseg]
  simp [rangesOf]

theorem parseTimeRanges_blank_witness :
    (∀ c ∈ " , ,, ".toList, c = ',' ∨ IsSpace c = true) ∧
    ParseTimeRanges " , ,, ".toList = .ok [{ Start := 0, End := 1440 }] :=
  ⟨by decide, parseTimeRanges_blank " , ,, ".toList (by decide)⟩

/-- C5: when the parser succeeds on an input that has a segment that is non-empty after
trimming, the result has one range per such segment, in input order: the i-th range is
the one the parser gives for the i-th such segment alone; empty segments contribute
nothing.  `"06:00-08:00,12:00-14:00"` yields `[{360,480},{720,840}]`. -/
theorem parseTimeRanges_one_range_per_segment (s : List Char) (r : TimeRanges)
    (h : ParseTimeRanges s = .ok r) (hseg : segments s ≠ []) :
    List.Forall₂ (fun seg tr => ParseTimeRanges seg = .ok [tr]) (segments s) r ∧
    r.length = (segments s).length ∧
    ParseTimeRanges "06:00-08:00,12:00-14:00".toList =
      .ok [{ Start := 360, End := 480 }, { Start := 720, End := 840 }] := by
  rw [ParseTimeRanges_eq] at h
  cases hrs : rangesOf (segments s) with
  | error err => rw [hrs] at h; cases h
  | ok rs =>
    rw [hrs] at h
    have hF := (rangesOf_ok_iff (segments s) rs).1 hrs
    have hlen := hF.length_eq
    have hne : rs ≠ [] := by
      intro hnil
      rw [hnil] at hlen
      exact hseg (List.length_eq_zero.1 hlen)
    simp only [hne, if_false, Except.ok.injEq] at h
    subst h
    refine ⟨forall₂_of_mem hF ?_, hlen.symm, rfl⟩
    intro seg hmem tr htr
    obtain ⟨h1, h2, h3⟩ := of_mem_segments hmem
    exact (ParseTimeRanges_segment h1 h2 h3 tr).2 htr

theorem parseTimeRanges_one_range_per_segment_witness :
    ParseTimeRanges " 06:00-08:00, ,12:00 - 23:59,".toList =
      .ok [{ Start := 360, End := 480 }, { Start := 720, End := 1440 }] ∧
    segments " 06:00-08:00, ,12:00 - 23:59,".toList ≠ [] ∧
    List.Forall₂ (fun seg tr => ParseTimeRanges seg = .ok [tr])
      (segments " 06:00-08:00, ,12:00 - 23:59,".toList)
      [{ Start := 360, End := 480 }, { Start := 720, End := 1440 }] :=
  ⟨rfl, by decide,
    (parseTimeRanges_one_range_per_segment " 06:00-08:00, ,12:00 - 23:59,".toList
      [{ Start := 360, End := 480 }, { Start := 720, End := 1440 }] rfl (by decide)).1⟩

/-- C6: the parser succeeds exactly when every segment that is non-empty after trimming
splits on `-` into exactly two parts that `parseTimeToMinutes` both accepts; one segment
that does not makes the whole call fail, with an error and no ranges, whatever the other
segments are. -/
theorem parseTimeRanges_ok_iff (s : List Char) :
    ((∃ r, ParseTimeRanges s = .ok r) ↔ ∀ seg ∈ segments s, wellFormedRange seg = true) ∧
    (∀ seg ∈ segments s, wellFormedRange seg = false →
      ∃ err, ParseTimeRanges s = .error err) := by
  have key : (∃ r, ParseTimeRanges s = .ok r) ↔
      ∀ seg ∈ segments s, wellFormedRange seg = true := by
    rw [ParseTimeRanges_eq]
    cases hrs : rangesOf (segments s) with
    | error err =>
      obtain ⟨pre, seg, post, hl, _, herr⟩ := (rangesOf_error_iff _ _).1 hrs
      constructor
      · rintro ⟨r, hr⟩
        cases hr
      · intro hall
        have hw := hall seg (by rw [hl]; simp)
        obtain ⟨r, hr⟩ := (rangeOf_ok_iff seg).2 hw
        rw [hr] at herr
        cases herr
    | ok rs =>
      have hF := (rangesOf_ok_iff (segments s) rs).1 hrs
      constructor
      · intro _ seg hmem
        obtain ⟨r, hr⟩ := forall₂_mem_left hF seg hmem
        exact (rangeOf_ok_iff seg).1 ⟨r, hr⟩
      · intro _
        by_cases hnil : rs = []
        · exact ⟨[{ Start := 0, End := 1440 }], by simp only [hnil, if_true]⟩
        · exact ⟨rs, by simp only [hnil, if_false]⟩
  refine ⟨key, ?_⟩
  intro seg hmem hbad
  cases hp : ParseTimeRanges s with
  | error err => exact ⟨err, rfl⟩
  | ok r =>
    have := key.1 ⟨r, hp⟩ seg hmem
    rw [hbad] at this
    cases this

/-- C7: when the parser fails, the error is that of the first segment, non-empty after
trimming, that is not a well-formed range: a format error carrying the trimmed segment
when it does not split on `-` into exactly two parts, an invalid-start-time error when
the left part is rejected, and an invalid-end-time error when only the right part is
rejected. -/
theorem parseTimeRanges_error_kind (s : List Char) (err : ParseError)
    (h : ParseTimeRanges s = .error err) :
    (∃ pre seg post, segments s = pre ++ seg :: post ∧
      (∀ x ∈ pre, wellFormedRange x = true) ∧ wellFormedRange seg = false ∧
      ((Split seg '-').length ≠ 2 → err = .format seg) ∧
      (∀ p0 p1, Split seg '-' = [p0, p1] →
        (accepts p0 = false →
          ∃ cause, parseTimeToMinutes p0 = .error cause ∧ err = .invalidStart cause) ∧
        (accepts p0 = true → accepts p1 = false →
          ∃ cause, parseTimeToMinutes p1 = .error cause ∧ err = .invalidEnd cause))) ∧
    ParseTimeRanges "06:00-08:00-10:00".toList = .error (.format "06:00-08:00-10:00".toList) ∧
    ParseTimeRanges "25:00-08:00".toList = .error (.invalidStart (.badHour "25".toList)) ∧
    ParseTimeRanges "25:00-08:60".toList = .error (.invalidStart (.badHour "25".toList)) ∧
    ParseTimeRanges "06:00-08:60".toList = .error (.invalidEnd (.badMinute "60".toList)) := by
  refine ⟨?_, rfl, rfl, rfl, rfl⟩
  rw [ParseTimeRanges_eq] at h
  cases hrs : rangesOf (segments s) with
  | ok rs =>
    rw [hrs] at h
    by_cases hnil : rs = []
    · simp only [hnil, if_true] at h
      cases h
    · simp only [hnil, if_false] at h
      cases h
  | error e =>
    rw [hrs] at h
    simp only [Except.error.injEq] at h
    subst h
    obtain ⟨pre, seg, post, hl, hpre, herr⟩ := (rangesOf_error_iff _ _).1 hrs
    refine ⟨pre, seg, post, hl, fun x hx => (rangeOf_ok_iff x).1 (hpre x hx), ?_,
      rangeOf_error herr⟩
    cases hw : wellFormedRange seg with
    | false => rfl
    | true =>
      obtain ⟨r, hr⟩ := (rangeOf_ok_iff seg).2 hw
      rw [hr] at herr
      cases herr

theorem parseTimeRanges_error_kind_witness :
    ∃ pre seg post, segments "06:00-08:00, 12:00-1x:00 ,zz".toList = pre ++ seg :: post ∧
      (∀ x ∈ pre, wellFormedRange x = true) ∧ wellFormedRange seg = false ∧
      ((Split seg '-').length ≠ 2 →
        ParseError.invalidEnd (.badHour "1x".toList) = .format seg) ∧
      (∀ p0 p1, Split seg '-' = [p0, p1] →
        (accepts p0 = false →
          ∃ cause, parseTimeToMinutes p0 = .error cause ∧
            ParseError.invalidEnd (.badHour "1x".toList) = .invalidStart cause) ∧
        (accepts p0 = true → accepts p1 = false →
          ∃ cause, parseTimeToMinutes p1 = .error cause ∧
            ParseError.invalidEnd (.badHour "1x".toList) = .invalidEnd cause)) :=
  (parseTimeRanges_error_kind "06:00-08:00, 12:00-1x:00 ,zz".toList
    (.invalidEnd (.badHour "1x".toList)) rfl).1

/-- C8: a token that contains a colon is accepted exactly when it splits on `:` into
exactly two parts whose trimmed texts read as decimal integers `h` in `[0,23]` and `m` in
`[0,59]`; the value is then `h*60 + m`, which lies in `[0,1439]`; otherwise the result is
an error, and `"25:00"` is rejected for its hour. -/
theorem parseTimeToMinutes_colon (t : List Char) (h : ':' ∈ t) :
    (∀ v, parseTimeToMinutes t = .ok v ↔
      ∃ p0 p1 hh mm, Split t ':' = [p0, p1] ∧
        Atoi (TrimSpace p0) = some hh ∧ 0 ≤ hh ∧ hh ≤ 23 ∧
        Atoi (TrimSpace p1) = some mm ∧ 0 ≤ mm ∧ mm ≤ 59 ∧ v = hh * 60 + mm) ∧
    (∀ v, parseTimeToMinutes t = .ok v → 0 ≤ v ∧ v ≤ 1439) ∧
    ((¬ ∃ p0 p1 hh mm, Split t ':' = [p0, p1] ∧
        Atoi (TrimSpace p0) = some hh ∧ 0 ≤ hh ∧ hh ≤ 23 ∧
        Atoi (TrimSpace p1) = some mm ∧ 0 ≤ mm ∧ mm ≤ 59) →
      ∃ err, parseTimeToMinutes t = .error err) ∧
    parseTimeToMinutes "25:00".toList = .error (.badHour "25".toList) := by
  refine ⟨fun v => parseTimeToMinutes_ok_colon h v, ?_, ?_, rfl⟩
  · intro v hv
    obtain ⟨p0, p1, hh, mm, -, -, h1, h2, -, h3, h4, rfl⟩ :=
      (parseTimeToMinutes_ok_colon h v).1 hv
    omega
  · intro hno
    cases hp : parseTimeToMinutes t with
    | error err => exact ⟨err, rfl⟩
    | ok v =>
      obtain ⟨p0, p1, hh, mm, h0, h1, h2, h3, h4, h5, h6, -⟩ :=
        (parseTimeToMinutes_ok_colon h v).1 hp
      exact absurd ⟨p0, p1, hh, mm, h0, h1, h2, h3, h4, h5, h6⟩ hno

theorem parseTimeToMinutes_colon_witness :
    ':' ∈ " 7 :05".toList ∧ parseTimeToMinutes " 7 :05".toList = .ok 425 ∧
    ∃ p0 p1 hh mm, Split " 7 :05".toList ':' = [p0, p1] ∧
      Atoi (TrimSpace p0) = some hh ∧ 0 ≤ hh ∧ hh ≤ 23 ∧
      Atoi (TrimSpace p1) = some mm ∧ 0 ≤ mm ∧ mm ≤ 59 ∧ (425 : Int) = hh * 60 + mm :=
  ⟨by decide, rfl,
    ((parseTimeToMinutes_colon " 7 :05".toList (by decide)).1 425).1 rfl⟩

/-- C9: a token that contains no colon is accepted exactly when its trimmed text reads as
a decimal integer `n` with `0 ≤ n ≤ 1440`, and the value is `n` itself; so `"360-480"`
parses to `[{360,480}]`, the same result as `"06:00-08:00"`. -/
theorem parseTimeToMinutes_plain (t : List Char) (h : ':' ∉ t) :
    (∀ v, parseTimeToMinutes t = .ok v ↔ Atoi (TrimSpace t) = some v ∧ 0 ≤ v ∧ v ≤ 1440) ∧
    ((¬ ∃ n, Atoi (TrimSpace t) = some n ∧ 0 ≤ n ∧ n ≤ 1440) →
      ∃ err, parseTimeToMinutes t = .error err) ∧
    ParseTimeRanges "360-480".toList = .ok [{ Start := 360, End := 480 }] ∧
    ParseTimeRanges "360-480".toList = ParseTimeRanges "06:00-08:00".toList := by
  refine ⟨fun v => parseTimeToMinutes_ok_plain h v, ?_, rfl, rfl⟩
  intro hno
  cases hp : parseTimeToMinutes t with
  | error err => exact ⟨err, rfl⟩
  | ok v => exact absurd ⟨v, (parseTimeToMinutes_ok_plain h v).1 hp⟩ hno

theorem parseTimeToMinutes_plain_witness :
    ':' ∉ " 1440 ".toList ∧ parseTimeToMinutes " 1440 ".toList = .ok 1440 ∧
    (Atoi (TrimSpace " 1440 ".toList) = some 1440 ∧ (0 : Int) ≤ 1440 ∧ (1440 : Int) ≤ 1440) :=
  ⟨by decide, rfl, ((parseTimeToMinutes_plain " 1440 ".toList (by decide)).1 1440).1 rfl⟩

/-- C10, the claim as stated fails: the token `-0` is accepted by `parseTimeToMinutes`
with value `0`, but the segment `-0-23:59` splits on `-` into three parts and is rejected
with a format error. -/
theorem parseTimeRanges_end_2359_counterexample :
    parseTimeToMinutes "-0".toList = .ok 0 ∧
    ParseTimeRanges ("-0".toList ++ "-23:59".toList) = .error (.format "-0-23:59".toList) ∧
    ParseTimeRanges ("-0".toList ++ "-23:59".toList) ≠ .ok [{ Start := 0, End := 1440 }] := by
  refine ⟨rfl, rfl, ?_⟩
  intro hc
  have herr : ParseTimeRanges ("-0".toList ++ "-23:59".toList) =
      .error (.format "-0-23:59".toList) := rfl
  rw [herr] at hc
  cases hc

/-- C10, amended: for every start token without a hyphen that `parseTimeToMinutes` accepts
with value `s`, the single segment `<start>-23:59` parses to exactly `[{s, 1440}]`
(`"23:00-23:59"` gives `[{1380,1440}]`); the normalisation applies to the end only, a
start token `23:59` is kept as `Start = 1439`. -/
theorem parseTimeRanges_end_2359 (t : List Char) (v : Int) (hdash : '-' ∉ t)
    (h : parseTimeToMinutes t = .ok v) :
    ParseTimeRanges (t ++ "-23:59".toList) = .ok [{ Start := v, End := 1440 }] ∧
    ParseTimeRanges "23:00-23:59".toList = .ok [{ Start := 1380, End := 1440 }] ∧
    ParseTimeRanges "23:59-23:59".toList = .ok [{ Start := 1439, End := 1440 }] := by
  refine ⟨?_, rfl, rfl⟩
  have hne : t ++ "-23:59".toList ≠ [] := by simp
  have hcomma : ',' ∉ t ++ "-23:59".toList := by
    rw [List.mem_append]
    rintro (hc | hc)
    · exact not_comma_mem_of_accepted h hc
    · exact absurd hc (by decide)
  have hdrop := dropWhile_ne_nil_of_accepted h
  have htrim : TrimSpace (t ++ "-23:59".toList) =
      t.dropWhile IsSpace ++ '-' :: "23:59".toList :=
    TrimSpace_append hdrop "-23:5".toList (z := '9') (by decide)
  have hdash2 : '-' ∉ t.dropWhile IsSpace :=
    fun hc => hdash ((List.dropWhile_sublist IsSpace).subset hc)
  have hsplit : Split (t.dropWhile IsSpace ++ '-' :: "23:59".toList) '-' =
      [t.dropWhile IsSpace, "23:59".toList] := by
    rw [Split_append_sep hdash2]
    rfl
  have hrange : rangeOf (t.dropWhile IsSpace ++ '-' :: "23:59".toList) =
      .ok { Start := v, End := 1440 } := by
    unfold rangeOf
    rw [hsplit]
    simp only [parseTimeToMinutes_dropWhile h]
    rfl
  unfold ParseTimeRanges
  rw [if_neg hne, Split_of_not_mem hcomma, parseLoop_cons, htrim, if_neg (by simp), hrange]
  rfl

theorem parseTimeRanges_end_2359_witness :
    '-' ∉ " +7:30 ".toList ∧ parseTimeToMinutes " +7:30 ".toList = .ok 450 ∧
    ParseTimeRanges (" +7:30 ".toList ++ "-23:59".toList) =
      .ok [{ Start := 450, End := 1440 }] :=
  ⟨by decide, rfl, (parseTimeRanges_end_2359 " +7:30 ".toList 450 (by decide) rfl).1⟩

/-- C11: `"00:00-23:59"` and `"0-1440"` both parse to `[{0, 1440}]`, and that result
allows every minute `m` with `0 ≤ m < 1440`. -/
theorem parseTimeRanges_all_day (m : Int) :
    ParseTimeRanges "00:00-23:59".toList = .ok [{ Start := 0, End := 1440 }] ∧
    ParseTimeRanges "0-1440".toList = .ok [{ Start := 0, End := 1440 }] ∧
    (0 ≤ m → m < 1440 →
      TimeRanges.IsInAnyRange [{ Start := 0, End := 1440 }] m = true) := by
  refine ⟨rfl, rfl, ?_⟩
  intro h0 h1
  simp [TimeRanges.IsInAnyRange, TimeRange.IsInRange, h0, h1]

/-! ## Machine integers -/

/-- A value in the range of `int` is not changed by wrapping. -/
theorem toInt64_of_range {x : Int} (h0 : -2 ^ 63 ≤ x) (h1 : x < 2 ^ 63) : toInt64 x = x := by
  unfold toInt64
  omega

/-- Wrapping an intermediate sum does not change the wrapped result. -/
theorem toInt64_add_toInt64 (a b : Int) : toInt64 (toInt64 a + b) = toInt64 (a + b) := by
  unfold toInt64
  omega

/-- Wrapping the number of minutes does not change the wrapped number of nanoseconds. -/
theorem toInt64_mul_Minute (a : Int) : toInt64 (toInt64 a * Minute) = toInt64 (a * Minute) := by
  unfold toInt64 Minute
  omega

/-- The duration, as the wrapped exact number of nanoseconds. -/
theorem CalculateSleepDuration_eq (c n : Int) :
    CalculateSleepDuration c n =
      toInt64 ((if n > c then n - c else (1440 - c) + n) * Minute) := by
  unfold CalculateSleepDuration sleepMinutes
  by_cases h : n > c
  · simp only [h, if_true]
    exact toInt64_mul_Minute _
  · simp only [h, if_false]
    rw [toInt64_add_toInt64]
    exact toInt64_mul_Minute _

/-- The duration for minutes of one day. -/
theorem CalculateSleepDuration_of_day {c n : Int} (hc0 : 0 ≤ c) (hc1 : c ≤ 1440)
    (hn0 : 0 ≤ n) (hn1 : n ≤ 1440) :
    CalculateSleepDuration c n = (if n > c then n - c else (1440 - c) + n) * Minute := by
  rw [CalculateSleepDuration_eq]
  apply toInt64_of_range
  · split <;> (unfold Minute; omega)
  · split <;> (unfold Minute; omega)

/-! ## The sleep duration -/

/-- C13, the claim as stated fails: for `currentMinute = 0` and
`nextAllowedMinute = 153722868` the product `153722868 * time.Minute` does not fit in
the `int64` of a `time.Duration`; the result is a negative duration and not `153722868`
minutes. -/
theorem calculateSleepDuration_minutes_counterexample :
    (153722868 : Int) > 0 ∧
    CalculateSleepDuration 0 153722868 = -9223371993709551616 ∧
    CalculateSleepDuration 0 153722868 ≠ (153722868 - 0) * Minute := by
  decide

/-- C13, amended: whenever the number of nanoseconds of the minute count `d` (`d = n - c`
when `n > c`, `d = (1440 - c) + n` when `n ≤ c`) fits in the `int64` of a
`time.Duration`, `CalculateSleepDuration c n` is exactly `d` minutes;
`CalculateSleepDuration 300 360` is 60 minutes and `CalculateSleepDuration 500 360` is
1300 minutes. -/
theorem calculateSleepDuration_minutes (c n : Int)
    (hlo : -2 ^ 63 ≤ (if n > c then n - c else (1440 - c) + n) * Minute)
    (hhi : (if n > c then n - c else (1440 - c) + n) * Minute < 2 ^ 63) :
    (n > c → CalculateSleepDuration c n = (n - c) * Minute) ∧
    (n ≤ c → CalculateSleepDuration c n = ((1440 - c) + n) * Minute) ∧
    CalculateSleepDuration 300 360 = 60 * Minute ∧
    CalculateSleepDuration 500 360 = 1300 * Minute := by
  have key := CalculateSleepDuration_eq c n
  rw [toInt64_of_range hlo hhi] at key
  refine ⟨?_, ?_, by decide, by decide⟩
  · intro h
    rw [key, if_pos h]
  · intro h
    rw [key, if_neg (by omega)]

theorem calculateSleepDuration_minutes_witness :
    (1000000 > (-5 : Int) → CalculateSleepDuration (-5) 1000000 = (1000000 - (-5)) * Minute) ∧
    CalculateSleepDuration (-5) 1000000 = 1000005 * Minute :=
  ⟨(calculateSleepDuration_minutes (-5) 1000000 (by decide) (by decide)).1, by decide⟩

/-- C20: for `0 ≤ c < 1440` and `0 ≤ n < 1440` the number of minutes `d` of
`CalculateSleepDuration c n` satisfies `1 ≤ d ≤ 1440` and `(c + d) mod 1440 = n`; when
`n = c` the sleep is a full day of 1440 minutes. -/
theorem calculateSleepDuration_bounds (c n : Int) (hc0 : 0 ≤ c) (hc1 : c < 1440)
    (hn0 : 0 ≤ n) (hn1 : n < 1440) :
    CalculateSleepDuration c n = (CalculateSleepDuration c n / Minute) * Minute ∧
    1 ≤ CalculateSleepDuration c n / Minute ∧
    CalculateSleepDuration c n / Minute ≤ 1440 ∧
    (c + CalculateSleepDuration c n / Minute) % 1440 = n ∧
    (n = c → CalculateSleepDuration c n / Minute = 1440) := by
  have key := CalculateSleepDuration_of_day hc0 (by omega) hn0 (by omega : n ≤ 1440)
  have hM : Minute ≠ 0 := by decide
  rw [key, Int.mul_ediv_cancel _ hM]
  refine ⟨rfl, ?_, ?_, ?_, ?_⟩
  · split <;> omega
  · split <;> omega
  · split <;> omega
  · intro h
    rw [if_neg (by omega)]
    omega

theorem calculateSleepDuration_bounds_witness :
    CalculateSleepDuration 500 360 / Minute = 1300 ∧
    (500 + CalculateSleepDuration 500 360 / Minute) % 1440 = 360 :=
  ⟨by decide,
    (calculateSleepDuration_bounds 500 360 (by decide) (by decide) (by decide)
      (by decide)).2.2.2.1⟩

/-! ## The search for the next allowed minute -/

/-- A result of the loop is the first minute from `start` that is in a range. -/
theorem scanLoop_some (trs : TimeRanges) (hi : Int) :
    ∀ (fuel : Nat) (start m : Int), scanLoop trs hi fuel start = some m →
      start ≤ m ∧ m < hi ∧ TimeRanges.IsInAnyRange trs m = true ∧
        ∀ k, start ≤ k → k < m → TimeRanges.IsInAnyRange trs k = false := by
  intro fuel
  induction fuel with
  | zero => intro start m h; simp [scanLoop] at h
  | succ n ih =>
    intro start m h
    rw [scanLoop] at h
    by_cases hlt : start < hi
    · rw [if_pos hlt] at h
      by_cases hin : TimeRanges.IsInAnyRange trs start = true
      · rw [if_pos hin] at h
        cases h
        exact ⟨le_refl _, hlt, hin, fun k h1 h2 => by omega⟩
      · rw [if_neg hin] at h
        obtain ⟨h1, h2, h3, h4⟩ := ih (start + 1) m h
        refine ⟨by omega, h2, h3, ?_⟩
        intro k hk1 hk2
        by_cases hks : k = start
        · rw [hks]
          simpa using hin
        · exact h4 k (by omega) hk2
    · rw [if_neg hlt] at h
      cases h

/-- The loop, run to its end, finds no minute only when no minute from `start` below `hi`
is in a range. -/
theorem scanLoop_none (trs : TimeRanges) (hi : Int) :
    ∀ (fuel : Nat) (start : Int), hi - start ≤ fuel → scanLoop trs hi fuel start = none →
      ∀ k, start ≤ k → k < hi → TimeRanges.IsInAnyRange trs k = false := by
  intro fuel
  induction fuel with
  | zero => intro start hf _ k h1 h2; omega
  | succ n ih =>
    intro start hf h k hk1 hk2
    rw [scanLoop] at h
    have hlt : start < hi := by omega
    rw [if_pos hlt] at h
    by_cases hin : TimeRanges.IsInAnyRange trs start = true
    · rw [if_pos hin] at h
      cases h
    · rw [if_neg hin] at h
      by_cases hks : k = start
      · rw [hks]
        simpa using hin
      · exact ih (start + 1) (by push_cast at hf ⊢; omega) h k (by omega) hk2

/-- The three ways `FindNextAllowedTime` returns, when `currentMinute + 1` does not
overflow: the first allowed minute after `c` in the day, else the first allowed minute
from `0` below `c`, else `c`. -/
theorem FindNextAllowedTime_cases (c : Int) (trs : TimeRanges) (hlo : -2 ^ 63 ≤ c)
    (hhi : c < 2 ^ 63 - 1) :
    (c < FindNextAllowedTime c trs ∧ FindNextAllowedTime c trs < 1440 ∧
      TimeRanges.IsInAnyRange trs (FindNextAllowedTime c trs) = true ∧
      ∀ k, c < k → k < FindNextAllowedTime c trs → TimeRanges.IsInAnyRange trs k = false) ∨
    ((∀ k, c < k → k < 1440 → TimeRanges.IsInAnyRange trs k = false) ∧
      0 ≤ FindNextAllowedTime c trs ∧ FindNextAllowedTime c trs < c ∧
      TimeRanges.IsInAnyRange trs (FindNextAllowedTime c trs) = true ∧
      ∀ k, 0 ≤ k → k < FindNextAllowedTime c trs → TimeRanges.IsInAnyRange trs k = false) ∨
    ((∀ k, c < k → k < 1440 → TimeRanges.IsInAnyRange trs k = false) ∧
      (∀ k, 0 ≤ k → k < c → TimeRanges.IsInAnyRange trs k = false) ∧
      FindNextAllowedTime c trs = c) := by
  unfold FindNextAllowedTime
  have hw : toInt64 (c + 1) = c + 1 := toInt64_of_range (by omega) (by omega)
  simp only [hw]
  cases h1 : scanLoop trs 1440 (1440 - (c + 1)).toNat (c + 1) with
  | some m =>
    dsimp only
    obtain ⟨a1, a2, a3, a4⟩ := scanLoop_some trs 1440 _ _ m h1
    exact Or.inl ⟨by omega, a2, a3, fun k hk1 hk2 => a4 k (by omega) hk2⟩
  | none =>
    have hn1 := scanLoop_none trs 1440 _ _ (by omega) h1
    have hn1' : ∀ k, c < k → k < 1440 → TimeRanges.IsInAnyRange trs k = false :=
      fun k hk1 hk2 => hn1 k (by omega) hk2
    dsimp only
    cases h2 : scanLoop trs c c.toNat 0 with
    | some m =>
      dsimp only
      obtain ⟨a1, a2, a3, a4⟩ := scanLoop_some trs c _ _ m h2
      exact Or.inr (Or.inl ⟨hn1', a1, a2, a3, a4⟩)
    | none =>
      dsimp only
      have hn2 := scanLoop_none trs c _ _ (by omega) h2
      exact Or.inr (Or.inr ⟨hn1', hn2, rfl⟩)

/-- C12, the claim as stated fails: for the largest `int`, `currentMinute + 1` wraps to the
smallest `int`, which the range `{1380, 60}` contains; it is returned, although no minute
after `currentMinute` is allowed and the allowed minutes from `0` below `currentMinute`
are not negative. -/
theorem findNextAllowedTime_first_counterexample :
    FindNextAllowedTime (2 ^ 63 - 1) [{ Start := 1380, End := 60 }] = -2 ^ 63 ∧
    (¬ ∃ m : Int, 2 ^ 63 - 1 < m ∧ m < 1440 ∧
      TimeRanges.IsInAnyRange [{ Start := 1380, End := 60 }] m = true) ∧
    (∃ m : Int, 0 ≤ m ∧ m < 2 ^ 63 - 1 ∧
      TimeRanges.IsInAnyRange [{ Start := 1380, End := 60 }] m = true) ∧
    ¬ (0 ≤ FindNextAllowedTime (2 ^ 63 - 1) [{ Start := 1380, End := 60 }]) := by
  have hF : FindNextAllowedTime (2 ^ 63 - 1) [{ Start := 1380, End := 60 }] = -2 ^ 63 := rfl
  refine ⟨hF, ?_, ⟨0, by decide, by decide, by decide⟩, ?_⟩
  · rintro ⟨m, h1, h2, -⟩
    omega
  · rw [hF]
    decide

set_option maxRecDepth 100000 in
/-- C12, amended: for every `int` `c` other than the largest one and every `trs`,
`FindNextAllowedTime c trs` is the smallest minute `m` with `c < m < 1440` that is in a
range if there is one; otherwise the smallest minute `m` with `0 ≤ m < c` that is in a
range if there is one; otherwise `c`.  `FindNextAllowedTime 500 [{360,480}] = 360`. -/
theorem findNextAllowedTime_first (c : Int) (trs : TimeRanges) (hlo : -2 ^ 63 ≤ c)
    (hhi : c < 2 ^ 63 - 1) :
    ((∃ m, c < m ∧ m < 1440 ∧ TimeRanges.IsInAnyRange trs m = true) →
      c < FindNextAllowedTime c trs ∧ FindNextAllowedTime c trs < 1440 ∧
      TimeRanges.IsInAnyRange trs (FindNextAllowedTime c trs) = true ∧
      ∀ m, c < m → m < 1440 → TimeRanges.IsInAnyRange trs m = true →
        FindNextAllowedTime c trs ≤ m) ∧
    ((¬ ∃ m, c < m ∧ m < 1440 ∧ TimeRanges.IsInAnyRange trs m = true) →
      (∃ m, 0 ≤ m ∧ m < c ∧ TimeRanges.IsInAnyRange trs m = true) →
      0 ≤ FindNextAllowedTime c trs ∧ FindNextAllowedTime c trs < c ∧
      TimeRanges.IsInAnyRange trs (FindNextAllowedTime c trs) = true ∧
      ∀ m, 0 ≤ m → m < c → TimeRanges.IsInAnyRange trs m = true →
        FindNextAllowedTime c trs ≤ m) ∧
    ((¬ ∃ m, c < m ∧ m < 1440 ∧ TimeRanges.IsInAnyRange trs m = true) →
      (¬ ∃ m, 0 ≤ m ∧ m < c ∧ TimeRanges.IsInAnyRange trs m = true) →
      FindNextAllowedTime c trs = c) ∧
    FindNextAllowedTime 500 [{ Start := 360, End := 480 }] = 360 := by
  refine ⟨?_, ?_, ?_, by decide⟩
  · rintro ⟨m0, hm1, hm2, hm3⟩
    rcases FindNextAllowedTime_cases c trs hlo hhi with ⟨a1, a2, a3, a4⟩ | ⟨b1, -⟩ | ⟨b1, -⟩
    · refine ⟨a1, a2, a3, ?_⟩
      intro m h1 _ h3
      by_contra hlt
      have := a4 m h1 (by omega)
      rw [h3] at this
      cases this
    · have := b1 m0 hm1 hm2
      rw [hm3] at this
      cases this
    · have := b1 m0 hm1 hm2
      rw [hm3] at this
      cases this
  · rintro hno ⟨m0, hm1, hm2, hm3⟩
    rcases FindNextAllowedTime_cases c trs hlo hhi with
      ⟨a1, a2, a3, -⟩ | ⟨-, b2, b3, b4, b5⟩ | ⟨-, c2, -⟩
    · exact absurd ⟨_, a1, a2, a3⟩ hno
    · refine ⟨b2, b3, b4, ?_⟩
      intro m h1 _ h3
      by_contra hlt
      have := b5 m h1 (by omega)
      rw [h3] at this
      cases this
    · have := c2 m0 hm1 hm2
      rw [hm3] at this
      cases this
  · intro hno1 hno2
    rcases FindNextAllowedTime_cases c trs hlo hhi with
      ⟨a1, a2, a3, -⟩ | ⟨-, b2, b3, b4, -⟩ | ⟨-, -, c3⟩
    · exact absurd ⟨_, a1, a2, a3⟩ hno1
    · exact absurd ⟨_, b2, b3, b4⟩ hno2
    · exact c3

theorem findNextAllowedTime_first_witness :
    (-2 ^ 63 : Int) ≤ 100 ∧ (100 : Int) < 2 ^ 63 - 1 ∧
    0 ≤ FindNextAllowedTime 100 [{ Start := 20, End := 30 }] ∧
    FindNextAllowedTime 100 [{ Start := 20, End := 30 }] < 100 ∧
    TimeRanges.IsInAnyRange [{ Start := 20, End := 30 }]
      (FindNextAllowedTime 100 [{ Start := 20, End := 30 }]) = true ∧
    FindNextAllowedTime 100 [{ Start := 20, End := 30 }] ≤ 20 :=
  have hnone : ¬ ∃ m : Int, 100 < m ∧ m < 1440 ∧
      TimeRanges.IsInAnyRange [{ Start := 20, End := 30 }] m = true := by
    rintro ⟨m, h1, -, h3⟩
    simp [TimeRanges.IsInAnyRange, TimeRange.IsInRange] at h3
    omega
  have h := (findNextAllowedTime_first 100 [{ Start := 20, End := 30 }] (by decide)
    (by decide)).2.1 hnone ⟨20, by decide, by decide, by decide⟩
  ⟨by decide, by decide, h.1, h.2.1, h.2.2.1, h.2.2.2 20 (by decide) (by decide) (by decide)⟩

set_option maxRecDepth 100000 in
/-- C17, the code at the failing input: the parser accepts `"360-360"` and returns the
empty range `{360, 360}`; for it both scans of `FindNextAllowedTime 100` end without a
result, the fallback returns `100`, and `100` is in no range. -/
theorem findNextAllowedTime_fallback_reached :
    ParseTimeRanges "360-360".toList = .ok [{ Start := 360, End := 360 }] ∧
    scanLoop [{ Start := 360, End := 360 }] 1440 1339 101 = none ∧
    scanLoop [{ Start := 360, End := 360 }] 100 100 0 = none ∧
    FindNextAllowedTime 100 [{ Start := 360, End := 360 }] = 100 ∧
    TimeRanges.IsInAnyRange [{ Start := 360, End := 360 }] 100 = false :=
  ⟨rfl, by decide, by decide, by decide, by decide⟩

/-- C19: for `0 ≤ c < 1440` and ranges that allow some minute of the day other than `c`,
`FindNextAllowedTime c trs` is an allowed minute of the day other than `c`, and no allowed
minute of the day other than `c` has a shorter `CalculateSleepDuration` from `c`. -/
theorem findNextAllowedTime_min_wait (c : Int) (trs : TimeRanges) (hc0 : 0 ≤ c)
    (hc1 : c < 1440)
    (hex : ∃ m, 0 ≤ m ∧ m < 1440 ∧ m ≠ c ∧ TimeRanges.IsInAnyRange trs m = true) :
    0 ≤ FindNextAllowedTime c trs ∧ FindNextAllowedTime c trs < 1440 ∧
    FindNextAllowedTime c trs ≠ c ∧
    TimeRanges.IsInAnyRange trs (FindNextAllowedTime c trs) = true ∧
    ∀ m, 0 ≤ m → m < 1440 → m ≠ c → TimeRanges.IsInAnyRange trs m = true →
      CalculateSleepDuration c (FindNextAllowedTime c trs) ≤ CalculateSleepDuration c m := by
  obtain ⟨m0, e1, e2, e3, e4⟩ := hex
  have hwait : ∀ r m, 0 ≤ r → r < 1440 → 0 ≤ m → m < 1440 →
      (if r > c then r - c else (1440 - c) + r) ≤ (if m > c then m - c else (1440 - c) + m) →
      CalculateSleepDuration c r ≤ CalculateSleepDuration c m := by
    intro r m hr0 hr1 hm0 hm1 hle
    rw [CalculateSleepDuration_of_day hc0 (by omega) hr0 (by omega),
      CalculateSleepDuration_of_day hc0 (by omega) hm0 (by omega)]
    exact Int.mul_le_mul_of_nonneg_right hle (by decide)
  rcases FindNextAllowedTime_cases c trs (by omega) (by omega) with
    ⟨a1, a2, a3, a4⟩ | ⟨b1, b2, b3, b4, b5⟩ | ⟨c1, c2, -⟩
  · refine ⟨by omega, a2, by omega, a3, ?_⟩
    intro m hm0 hm1 hmc hm
    apply hwait _ m (by omega) a2 hm0 hm1
    rw [if_pos (by omega)]
    by_cases hgt : m > c
    · rw [if_pos hgt]
      by_contra hlt
      have := a4 m hgt (by omega)
      rw [hm] at this
      cases this
    · rw [if_neg hgt]
      omega
  · refine ⟨b2, by omega, by omega, b4, ?_⟩
    intro m hm0 hm1 hmc hm
    apply hwait _ m b2 (by omega) hm0 hm1
    rw [if_neg (by omega)]
    by_cases hgt : m > c
    · have := b1 m hgt hm1
      rw [hm] at this
      cases this
    · rw [if_neg hgt]
      by_contra hlt
      have := b5 m hm0 (by omega)
      rw [hm] at this
      cases this
  · by_cases hgt : m0 > c
    · have := c1 m0 hgt e2
      rw [e4] at this
      cases this
    · have := c2 m0 e1 (by omega)
      rw [e4] at this
      cases this

set_option maxRecDepth 100000 in
theorem findNextAllowedTime_min_wait_witness :
    FindNextAllowedTime 500 [{ Start := 360, End := 480 }, { Start := 1380, End := 60 }] = 1380 ∧
    CalculateSleepDuration 500
        (FindNextAllowedTime 500 [{ Start := 360, End := 480 }, { Start := 1380, End := 60 }]) ≤
      CalculateSleepDuration 500 360 :=
  ⟨by decide,
    (findNextAllowedTime_min_wait 500 [{ Start := 360, End := 480 }, { Start := 1380, End := 60 }]
      (by decide) (by decide) ⟨360, by decide, by decide, by decide, by decide⟩).2.2.2.2
      360 (by decide) (by decide) (by decide) (by decide)⟩

/-! ## The ranges the parser returns -/

/-- An accepted token is a minute count in `[0, 1440]`. -/
theorem parseTimeToMinutes_range {t : List Char} {v : Int}
    (h : parseTimeToMinutes t = .ok v) : 0 ≤ v ∧ v ≤ 1440 := by
  by_cases hcol : ':' ∈ t
  · obtain ⟨p0, p1, hh, mm, -, -, h1, h2, -, h3, h4, rfl⟩ :=
      (parseTimeToMinutes_ok_colon hcol v).1 h
    omega
  · exact ((parseTimeToMinutes_ok_plain hcol v).1 h).2

/-- The range of a segment has both ends in `[0, 1440]`, and its end is not `1439`. -/
theorem rangeOf_bounds {seg : List Char} {tr : TimeRange} (h : rangeOf seg = .ok tr) :
    0 ≤ tr.Start ∧ tr.Start ≤ 1440 ∧ 0 ≤ tr.End ∧ tr.End ≤ 1440 ∧ tr.End ≠ 1439 := by
  unfold rangeOf at h
  split at h
  · rename_i p0 p1 _
    cases h0 : parseTimeToMinutes p0 with
    | error e => rw [h0] at h; cases h
    | ok a =>
      cases h1 : parseTimeToMinutes p1 with
      | error e => rw [h0, h1] at h; cases h
      | ok b =>
        rw [h0, h1] at h
        simp only [Except.ok.injEq] at h
        subst h
        have ha := parseTimeToMinutes_range h0
        have hb := parseTimeToMinutes_range h1
        dsimp only
        refine ⟨ha.1, ha.2, ?_, ?_, ?_⟩ <;> split <;> omega
  · cases h

theorem forall₂_mem_right {R : List Char → TimeRange → Prop} {l : List (List Char)}
    {rs : TimeRanges} (h : List.Forall₂ R l rs) : ∀ tr ∈ rs, ∃ seg, R seg tr := by
  induction h with
  | nil => intro tr htr; simp at htr
  | cons hab _ ih =>
    intro tr htr
    rcases List.mem_cons.1 htr with h | h
    · exact ⟨_, h ▸ hab⟩
    · exact ih tr h

/-- What the parser returns is not empty, has all its ends in `[0, 1440]`, and no end
equal to `1439`. -/
theorem ParseTimeRanges_inv {s : List Char} {r : TimeRanges} (h : ParseTimeRanges s = .ok r) :
    r ≠ [] ∧ ∀ tr ∈ r,
      0 ≤ tr.Start ∧ tr.Start ≤ 1440 ∧ 0 ≤ tr.End ∧ tr.End ≤ 1440 ∧ tr.End ≠ 1439 := by
  rw [ParseTimeRanges_eq] at h
  cases hrs : rangesOf (segments s) with
  | error err => rw [hrs] at h; cases h
  | ok rs =>
    rw [hrs] at h
    by_cases hnil : rs = []
    · simp only [hnil, if_true, Except.ok.injEq] at h
      subst h
      refine ⟨by simp, ?_⟩
      intro tr htr
      simp only [List.mem_singleton] at htr
      subst htr
      decide
    · simp only [hnil, if_false, Except.ok.injEq] at h
      subst h
      refine ⟨hnil, ?_⟩
      intro tr htr
      obtain ⟨seg, hseg⟩ := forall₂_mem_right ((rangesOf_ok_iff _ _).1 hrs) tr htr
      exact rangeOf_bounds hseg

/-- C15: what a successful `ParseTimeRanges` returns is not empty, and every range in it
has `0 ≤ Start ≤ 1440` and `0 ≤ End ≤ 1440`. -/
theorem parseTimeRanges_bounds (s : List Char) (r : TimeRanges)
    (h : ParseTimeRanges s = .ok r) :
    r ≠ [] ∧ ∀ tr ∈ r, 0 ≤ tr.Start ∧ tr.Start ≤ 1440 ∧ 0 ≤ tr.End ∧ tr.End ≤ 1440 := by
  obtain ⟨h1, h2⟩ := ParseTimeRanges_inv h
  refine ⟨h1, ?_⟩
  intro tr htr
  obtain ⟨a, b, c, d, -⟩ := h2 tr htr
  exact ⟨a, b, c, d⟩

theorem parseTimeRanges_bounds_witness :
    ParseTimeRanges "22:00-02:00, 1440-0".toList =
      .ok [{ Start := 1320, End := 120 }, { Start := 1440, End := 0 }] ∧
    ∀ tr ∈ [({ Start := 1320, End := 120 } : TimeRange), { Start := 1440, End := 0 }],
      0 ≤ tr.Start ∧ tr.Start ≤ 1440 ∧ 0 ≤ tr.End ∧ tr.End ≤ 1440 :=
  ⟨rfl, (parseTimeRanges_bounds "22:00-02:00, 1440-0".toList
    [{ Start := 1320, End := 120 }, { Start := 1440, End := 0 }] rfl).2⟩

/-- C16, the code at the failing input: the parser accepts `"1440-0"` and returns the
range `{1440, 0}`, whose `Start` is above `1439` and whose `End` is below `1`. -/
theorem parseTimeRanges_start_1440_end_0 :
    ParseTimeRanges "1440-0".toList = .ok [{ Start := 1440, End := 0 }] ∧
    ¬ ((1440 : Int) ≤ 1439) ∧ ¬ ((1 : Int) ≤ 0) :=
  ⟨rfl, by decide, by decide⟩

/-! ## Rendering and parsing again -/

/-- The digit loop reads the character of a digit as that digit. -/
theorem digitVal_digitChar {d : Nat} (h : d < 10) : digitVal (Nat.digitChar d) = some d :=
  (by decide : ∀ i : Fin 10, digitVal (Nat.digitChar i.val) = some i.val) ⟨d, h⟩

/-- Reading a digit character continues the digit loop with that digit appended. -/
theorem atoiDigits_digitChar {d : Nat} (h : d < 10) (rest : List Char) (k : Nat) :
    atoiDigits (Nat.digitChar d :: rest) k = atoiDigits rest (k * 10 + d) := by
  rw [atoiDigits, digitVal_digitChar h]

/-- What `Nat.toDigitsCore` writes for `v` in front of `out`, given enough steps, is read
back by the digit loop of `Atoi` as `v`: the loop, entered with `k`, leaves the run with
`k * w + v` for a weight `w` that depends on the run only.  The run is not empty and
made of digit characters. -/
theorem toDigitsCore_read (steps : Nat) : ∀ (v : Nat) (out : List Char), v < steps →
    ∃ (w : Nat) (run : List Char),
      (∀ (k : Nat) (rest : List Char), atoiDigits (run ++ rest) k = atoiDigits rest (k * w + v)) ∧
      (∀ c ∈ run, digitVal c ≠ none) ∧ run ≠ [] ∧
      Nat.toDigitsCore 10 steps v out = run ++ out := by
  induction steps with
  | zero => intro v out hv; omega
  | succ st ih =>
    intro v out hv
    have hlast : v % 10 < 10 := Nat.mod_lt v (by decide)
    have hdig : digitVal (Nat.digitChar (v % 10)) ≠ none := by
      rw [digitVal_digitChar hlast]
      simp
    rw [Nat.toDigitsCore]
    by_cases hsmall : v < 10
    · have hq : v / 10 = 0 := by omega
      simp only [hq, if_true]
      refine ⟨10, [Nat.digitChar (v % 10)], ?_, ?_, by simp, rfl⟩
      · intro k rest
        rw [List.singleton_append, atoiDigits_digitChar hlast]
        have : v % 10 = v := by omega
        rw [this]
      · intro c hc
        simp only [List.mem_singleton] at hc
        rw [hc]
        exact hdig
    · have hq : ¬ v / 10 = 0 := by omega
      simp only [hq, if_false]
      obtain ⟨w, run, hread, hall, -, hrun⟩ :=
        ih (v / 10) (Nat.digitChar (v % 10) :: out) (by omega)
      refine ⟨w * 10, run ++ [Nat.digitChar (v % 10)], ?_, ?_, by simp, by rw [hrun]; simp⟩
      · intro k rest
        rw [List.append_assoc, hread, List.singleton_append, atoiDigits_digitChar hlast]
        have : (k * w + v / 10) * 10 + v % 10 = k * (w * 10) + v := by
          have := Nat.div_add_mod v 10
          nlinarith
        rw [this]
      · intro c hc
        rcases List.mem_append.1 hc with hc | hc
        · exact hall c hc
        · simp only [List.mem_singleton] at hc
          rw [hc]
          exact hdig

/-- The decimal digits of `n`: a non-empty run of digit characters read back as `n`. -/
theorem toDigits_read (n : Nat) :
    Nat.toDigits 10 n ≠ [] ∧ (∀ c ∈ Nat.toDigits 10 n, digitVal c ≠ none) ∧
      atoiDigits (Nat.toDigits 10 n) 0 = some n := by
  obtain ⟨w, run, hread, hall, hne, hrun⟩ := toDigitsCore_read (n + 1) n [] (by omega)
  unfold Nat.toDigits
  rw [hrun, List.append_nil]
  refine ⟨hne, hall, ?_⟩
  have := hread 0 []
  rw [List.append_nil] at this
  rw [this]
  simp [atoiDigits]

/-- A digit character is not white space. -/
theorem IsSpace_of_digit {c : Char} (h : digitVal c ≠ none) : IsSpace c = false := by
  unfold digitVal at h
  by_cases hc : 48 ≤ c.toNat ∧ c.toNat ≤ 57
  · unfold IsSpace
    simp only [Bool.or_eq_false_iff, Bool.and_eq_false_imp, beq_eq_false_iff_ne,
      decide_eq_true_eq, decide_eq_false_iff_not]
    omega
  · rw [if_neg hc] at h
    exact absurd rfl h

/-- A string without white space is not changed by trimming. -/
theorem TrimSpace_of_no_space {l : List Char} (h : ∀ c ∈ l, IsSpace c = false) :
    TrimSpace l = l := by
  have hd : ∀ l : List Char, (∀ c ∈ l, IsSpace c = false) → l.dropWhile IsSpace = l := by
    intro l hl
    cases l with
    | nil => rfl
    | cons x xs => exact List.dropWhile_cons_of_neg (by simp [hl x (by simp)])
  unfold TrimSpace
  rw [hd l h, hd l.reverse (fun c hc => h c (List.mem_reverse.1 hc)), List.reverse_reverse]

/-- `Atoi` reads the decimal digits of a number in the range of `int` back. -/
theorem Atoi_toDigits {n : Nat} (h : n < 2 ^ 63) : Atoi (Nat.toDigits 10 n) = some (n : Int) := by
  obtain ⟨h1, h2, h3⟩ := toDigits_read n
  cases hds : Nat.toDigits 10 n with
  | nil => exact absurd hds h1
  | cons c rest =>
    rw [hds] at h2 h3
    have hc := h2 c (by simp)
    have hm : c ≠ '-' := by
      intro e
      rw [e] at hc
      exact hc (by decide)
    have hp : c ≠ '+' := by
      intro e
      rw [e] at hc
      exact hc (by decide)
    unfold Atoi
    simp only [hm, hp, if_false, h3, h, if_true]

/-- The rendering of a minute count in `[0, 1440]` is accepted with that value. -/
theorem parseTimeToMinutes_formatInt {v : Int} (h0 : 0 ≤ v) (h1 : v ≤ 1440) :
    parseTimeToMinutes (formatInt v) = .ok v := by
  obtain ⟨n, rfl⟩ := Int.eq_ofNat_of_zero_le h0
  have hfmt : formatInt (n : Int) = Nat.toDigits 10 n := rfl
  obtain ⟨_, hdig, _⟩ := toDigits_read n
  have hcol : ':' ∉ formatInt (n : Int) := by
    rw [hfmt]
    intro hc
    exact hdig _ hc (by decide)
  refine (parseTimeToMinutes_ok_plain hcol _).2 ⟨?_, h0, h1⟩
  rw [hfmt, TrimSpace_of_no_space (fun c hc => IsSpace_of_digit (hdig c hc))]
  exact Atoi_toDigits (by omega)

/-- The rendering of a number that is not negative is a non-empty run of digits. -/
theorem formatInt_digits {v : Int} (h0 : 0 ≤ v) :
    formatInt v ≠ [] ∧ ∀ c ∈ formatInt v, digitVal c ≠ none := by
  obtain ⟨n, rfl⟩ := Int.eq_ofNat_of_zero_le h0
  have hfmt : formatInt (n : Int) = Nat.toDigits 10 n := rfl
  rw [hfmt]
  exact ⟨(toDigits_read n).1, (toDigits_read n).2.1⟩

/-- The rendering of a range with ends in `[0, 1440]` is a segment with that range, the
end `1439` normalised to `1440`. -/
theorem rangeOf_render {tr : TimeRange}
    (hb : 0 ≤ tr.Start ∧ tr.Start ≤ 1440 ∧ 0 ≤ tr.End ∧ tr.End ≤ 1440) :
    rangeOf (formatInt tr.Start ++ '-' :: formatInt tr.End) = .ok (normEnd tr) := by
  obtain ⟨s0, s1, e0, e1⟩ := hb
  have hs : '-' ∉ formatInt tr.Start := fun hc => (formatInt_digits s0).2 _ hc (by decide)
  have he : '-' ∉ formatInt tr.End := fun hc => (formatInt_digits e0).2 _ hc (by decide)
  unfold rangeOf
  rw [Split_append_sep hs, Split_of_not_mem he]
  simp only [parseTimeToMinutes_formatInt s0 s1, parseTimeToMinutes_formatInt e0 e1]
  rfl

/-- The rendering of a range with ends that are not negative is not empty and has neither
white space nor a comma. -/
theorem render_chars {tr : TimeRange} (h0 : 0 ≤ tr.Start) (h1 : 0 ≤ tr.End) :
    formatInt tr.Start ++ '-' :: formatInt tr.End ≠ [] ∧
    (∀ c ∈ formatInt tr.Start ++ '-' :: formatInt tr.End, IsSpace c = false) ∧
    ',' ∉ formatInt tr.Start ++ '-' :: formatInt tr.End := by
  have hall : ∀ c ∈ formatInt tr.Start ++ '-' :: formatInt tr.End,
      c = '-' ∨ digitVal c ≠ none := by
    intro c hc
    rcases List.mem_append.1 hc with hc | hc
    · exact Or.inr ((formatInt_digits h0).2 c hc)
    · rcases List.mem_cons.1 hc with hc | hc
      · exact Or.inl hc
      · exact Or.inr ((formatInt_digits h1).2 c hc)
  refine ⟨by simp, ?_, ?_⟩
  · intro c hc
    rcases hall c hc with h | h
    · rw [h]; decide
    · exact IsSpace_of_digit h
  · intro hc
    rcases hall _ hc with h | h
    · exact absurd h (by decide)
    · exact h (by decide)

/-- Splitting a joined list of comma-free strings gives the list back. -/
theorem Split_Join : ∀ l : List (List Char), l ≠ [] → (∀ x ∈ l, ',' ∉ x) →
    Split (Join l ',') ',' = l := by
  intro l
  induction l with
  | nil => intro h; exact absurd rfl h
  | cons a rest ih =>
    intro _ hx
    cases rest with
    | nil => exact Split_of_not_mem (hx a (by simp))
    | cons b rest2 =>
      rw [Join, Split_append_sep (hx a (by simp)),
        ih (by simp) (fun x hxm => hx x (List.mem_cons_of_mem _ hxm))]

/-- The segments of a joined list of non-empty strings without white space or commas are
the strings of the list. -/
theorem segments_Join (l : List (List Char))
    (h : ∀ x ∈ l, x ≠ [] ∧ (∀ c ∈ x, IsSpace c = false) ∧ ',' ∉ x) :
    segments (Join l ',') = l := by
  by_cases hl : l = []
  · subst hl
    exact segments_nil
  · unfold segments
    rw [Split_Join l hl (fun x hx => (h x hx).2.2)]
    have hmap : l.map TrimSpace = l := by
      conv_rhs => rw [← List.map_id l]
      apply List.map_congr_left
      intro x hx
      exact TrimSpace_of_no_space (h x hx).2.1
    rw [hmap, List.filter_eq_self]
    intro x hx
    simpa using (h x hx).1

/-- The ranges of the rendered list are those of the list, each end `1439` normalised to
`1440`. -/
theorem rangesOf_render : ∀ trs : TimeRanges,
    (∀ tr ∈ trs, 0 ≤ tr.Start ∧ tr.Start ≤ 1440 ∧ 0 ≤ tr.End ∧ tr.End ≤ 1440) →
    rangesOf (trs.map (fun tr => formatInt tr.Start ++ '-' :: formatInt tr.End)) =
      .ok (trs.map normEnd) := by
  intro trs
  induction trs with
  | nil => intro _; rfl
  | cons tr rest ih =>
    intro hb
    rw [List.map_cons, rangesOf, rangeOf_render (hb tr (by simp)),
      ih (fun x hx => hb x (List.mem_cons_of_mem _ hx))]
    rfl

/-- Parsing the rendering of a list of ranges with ends in `[0, 1440]` succeeds: it gives
the all-day default for the empty list, and otherwise the list with each end `1439`
normalised to `1440`. -/
theorem ParseTimeRanges_String_norm {trs : TimeRanges}
    (hb : ∀ tr ∈ trs, 0 ≤ tr.Start ∧ tr.Start ≤ 1440 ∧ 0 ≤ tr.End ∧ tr.End ≤ 1440) :
    ParseTimeRanges (TimeRanges.String trs) =
      .ok (if trs = [] then [{ Start := 0, End := 1440 }] else trs.map normEnd) := by
  rw [ParseTimeRanges_eq]
  unfold TimeRanges.String
  rw [segments_Join, rangesOf_render trs hb]
  · by_cases hne : trs = []
    · simp [hne]
    · simp [hne]
  · intro x hx
    rw [List.mem_map] at hx
    obtain ⟨tr, htr, rfl⟩ := hx
    obtain ⟨s0, -, e0, -⟩ := hb tr htr
    exact render_chars s0 e0

/-- Parsing the rendering of a non-empty list of ranges with ends in `[0, 1440]` and no
end equal to `1439` gives the list back. -/
theorem ParseTimeRanges_String {trs : TimeRanges} (hne : trs ≠ [])
    (hb : ∀ tr ∈ trs, 0 ≤ tr.Start ∧ tr.Start ≤ 1440 ∧ 0 ≤ tr.End ∧ tr.End ≤ 1440 ∧
      tr.End ≠ 1439) :
    ParseTimeRanges (TimeRanges.String trs) = .ok trs := by
  rw [ParseTimeRanges_String_norm (fun tr htr =>
    ⟨(hb tr htr).1, (hb tr htr).2.1, (hb tr htr).2.2.1, (hb tr htr).2.2.2.1⟩), if_neg hne]
  have hmap : trs.map normEnd = trs := by
    conv_rhs => rw [← List.map_id trs]
    apply List.map_congr_left
    intro tr htr
    have : ¬ tr.End = 23 * 60 + 59 := by
      have := (hb tr htr).2.2.2.2
      omega
    simp only [normEnd, if_neg this, id]
  rw [hmap]

/-- C14, the claim as stated fails: the range `{0, 1439}` is rendered as `0-1439`, which
parses to `{0, 1440}`, a range that contains minute `1439` while `{0, 1439}` does not; and
the empty list is rendered as the empty string, which parses to the all-day range. -/
theorem string_then_parse_counterexample :
    ParseTimeRanges (TimeRanges.String [{ Start := 0, End := 1439 }]) =
      .ok [{ Start := 0, End := 1440 }] ∧
    TimeRanges.IsInAnyRange [{ Start := 0, End := 1440 }] 1439 = true ∧
    TimeRanges.IsInAnyRange [{ Start := 0, End := 1439 }] 1439 = false ∧
    ParseTimeRanges (TimeRanges.String []) = .ok [{ Start := 0, End := 1440 }] ∧
    TimeRanges.IsInAnyRange [{ Start := 0, End := 1440 }] 0 = true ∧
    TimeRanges.IsInAnyRange [] 0 = false :=
  ⟨rfl, by decide, by decide, rfl, by decide, by decide⟩

/-- C14, amended: for every `trs` whose `Start` and `End` values all lie in `[0, 1440]`,
parsing `trs.String()` succeeds; when `trs` is not empty and no `End` is `1439`, it
returns `trs` itself, hence ranges whose `IsInAnyRange` agrees with that of `trs` on every
minute of the day. -/
theorem string_then_parse (trs : TimeRanges)
    (hb : ∀ tr ∈ trs, 0 ≤ tr.Start ∧ tr.Start ≤ 1440 ∧ 0 ≤ tr.End ∧ tr.End ≤ 1440) :
    ∃ r, ParseTimeRanges (TimeRanges.String trs) = .ok r ∧
      (trs ≠ [] → (∀ tr ∈ trs, tr.End ≠ 1439) →
        r = trs ∧ ∀ m, 0 ≤ m → m < 1440 →
          TimeRanges.IsInAnyRange r m = TimeRanges.IsInAnyRange trs m) := by
  refine ⟨_, ParseTimeRanges_String_norm hb, ?_⟩
  intro hne hend
  have hback := ParseTimeRanges_String hne (fun tr htr =>
    ⟨(hb tr htr).1, (hb tr htr).2.1, (hb tr htr).2.2.1, (hb tr htr).2.2.2, hend tr htr⟩)
  rw [ParseTimeRanges_String_norm hb] at hback
  simp only [Except.ok.injEq] at hback
  rw [hback]
  exact ⟨rfl, fun _ _ _ => rfl⟩

theorem string_then_parse_witness :
    TimeRanges.String [{ Start := 1380, End := 60 }, { Start := 1439, End := 1440 }] =
      "1380-60,1439-1440".toList ∧
    ∃ r, ParseTimeRanges
        (TimeRanges.String [{ Start := 1380, End := 60 }, { Start := 1439, End := 1440 }]) =
          .ok r ∧
      r = [{ Start := 1380, End := 60 }, { Start := 1439, End := 1440 }] :=
  ⟨by decide,
    (string_then_parse [{ Start := 1380, End := 60 }, { Start := 1439, End := 1440 }]
      (by decide)).elim
      (fun r hr => ⟨r, hr.1, (hr.2 (by decide) (by decide)).1⟩)⟩

/-- C18: when `ParseTimeRanges` succeeds on an input with result `R`, parsing
`R.String()` succeeds and returns exactly `R`. -/
theorem parse_string_parse (s : List Char) (R : TimeRanges) (h : ParseTimeRanges s = .ok R) :
    ParseTimeRanges (TimeRanges.String R) = .ok R := by
  obtain ⟨hne, hb⟩ := ParseTimeRanges_inv h
  exact ParseTimeRanges_String hne hb

theorem parse_string_parse_witness :
    ParseTimeRanges " 06:00-08:00 ,, 23:00 - 23:59".toList =
      .ok [{ Start := 360, End := 480 }, { Start := 1380, End := 1440 }] ∧
    TimeRanges.String [{ Start := 360, End := 480 }, { Start := 1380, End := 1440 }] =
      "360-480,1380-1440".toList ∧
    ParseTimeRanges
        (TimeRanges.String [{ Start := 360, End := 480 }, { Start := 1380, End := 1440 }]) =
      .ok [{ Start := 360, End := 480 }, { Start := 1380, End := 1440 }] :=
  ⟨rfl, by decide,
    parse_string_parse " 06:00-08:00 ,, 23:00 - 23:59".toList
      [{ Start := 360, End := 480 }, { Start := 1380, End := 1440 }] rfl⟩

end Timerange
